import Mathlib

/-!
Verification of the box-shadow subsystem of the material-decoration
repository (`src/BoxShadowHelper.cc`, `src/Decoration.cc`).

The embedding below is a shallow model of the C++ source:

* Pixel buffers are flat arrays of 32-bit ARGB pixels.  A buffer of
  dimensions `w × h` occupies pixel indices `0 .. w*h - 1` (byte index
  `4*p + c` holds channel `c` of pixel `p`; on little-endian hosts, the
  alpha channel of pixel `p` is byte `4*p + 3`, matching
  `alphaOffset = 3` and `alphaStride = 4` in `boxBlurPass`).
  Alpha data is modelled as a total function `ℕ → ℕ` from flat pixel
  index to channel value; the source and destination pointers of the C++
  code are modelled as flat pixel offsets that advance exactly as the
  pointers do, so out-of-range offsets of the C++ code are visible as
  out-of-range indices in the recorded access traces.

* `boxBlurPass` is modelled by `boxBlurRow`/`boxBlurPassTrace`, which
  record every read offset and every `(write offset, written value)` of
  the pass in program order.  The quantity `window * invSize` is a C++
  `double` product of the `int` value `window` (whose conversion to
  double is exact) with the rounded reciprocal `invSize = 1.0 / boxSize`,
  then cast to `uchar`.  The model computes both roundings through
  `fl53`, round-to-nearest-even conversion of an exact rational to an
  IEEE-754 binary64 value, so the stored value is
  `⌊fl53 (window * fl53 (1 / boxSize))⌋` wrapped to 8 bits.  Because the
  reciprocal is rounded, the stored value can be one below the exact
  truncated average `window / boxSize`: at `boxSize = 49` a window sum
  of `49` stores `0`, not `1`.

* `computeBoxSizes` performs `double` arithmetic (`std::floor`,
  `std::sqrt`, `std::round`).  It is modelled in exact rational
  arithmetic: `ratFloorSqrt` computes the exact floor of the square root
  of a nonnegative rational and `croundQ` is `std::round` (half away
  from zero) on rationals.

* The `QRect`/`QMargins` computations of `Decoration::updateShadow` are
  modelled with the integer semantics of the Qt classes.
-/

/-- Sigma blur scale from the anonymous namespace of `BoxShadowHelper.cc`
(`const qreal SIGMA_BLUR_SCALE = 0.4375`); `0.4375 = 7/16` is exact in
binary floating point, so the rational model is exact here. -/
def SIGMA_BLUR_SCALE : ℚ := 0.4375

/-- Model of `radiusToSigma`: `radius * SIGMA_BLUR_SCALE`. -/
def radiusToSigma (radius : ℚ) : ℚ :=
  radius * SIGMA_BLUR_SCALE

/-- Model of `boxSizeToRadius`: `(boxSize - 1) / 2` in integer division. -/
def boxSizeToRadius (boxSize : ℕ) : ℕ :=
  (boxSize - 1) / 2

/-- Model of C++ `std::round` on an exact rational argument: rounding to
the nearest integer, halfway cases away from zero. -/
def croundQ (x : ℚ) : ℤ :=
  if 0 ≤ x then ⌊x + 1 / 2⌋ else ⌈x - 1 / 2⌉

/-- Exact floor of the square root of a nonnegative rational: with
`q = num / den`, `⌊√(num / den)⌋ = ⌊√(num * den)⌋ / den`.  This models
`std::floor(std::sqrt(q))` of `computeBoxSizes` in exact arithmetic. -/
def ratFloorSqrt (q : ℚ) : ℕ :=
  Nat.sqrt (q.num.toNat * q.den) / q.den

/-- The `lower` box width of `computeBoxSizes`:
`lower = floor(sqrt(12 sigma^2 / numIterations + 1))`, decremented if
even. -/
def computeBoxSizesLower (radius numIterations : ℕ) : ℤ :=
  let sigma := radiusToSigma (radius : ℚ)
  let lower := ratFloorSqrt (12 * sigma ^ 2 / (numIterations : ℚ) + 1)
  if lower % 2 = 0 then (lower : ℤ) - 1 else (lower : ℤ)

/-- The `threshold` of `computeBoxSizes` (Kovesi's closed-form
correction):
`round((12 sigma^2 - n lower^2 - 4 n lower - 3 n) / (-4 lower - 4))`. -/
def computeBoxSizesThreshold (radius numIterations : ℕ) : ℤ :=
  let sigma := radiusToSigma (radius : ℚ)
  let lower := computeBoxSizesLower radius numIterations
  croundQ ((12 * sigma ^ 2 - (numIterations : ℚ) * (lower : ℚ) ^ 2
      - 4 * (numIterations : ℚ) * (lower : ℚ) - 3 * (numIterations : ℚ))
    / (-4 * (lower : ℚ) - 4))

/-- Model of `computeBoxSizes`: entry `i` is `lower` for `i < threshold`
and `upper = lower + 2` otherwise. -/
def computeBoxSizes (radius numIterations : ℕ) : List ℤ :=
  (List.range numIterations).map fun (i : ℕ) =>
    if (i : ℤ) < computeBoxSizesThreshold radius numIterations
    then computeBoxSizesLower radius numIterations
    else computeBoxSizesLower radius numIterations + 2

/-- Round a rational to the nearest integer, ties to even: the rounding
applied by IEEE-754 arithmetic to the scaled significand. -/
def rne (x : ℚ) : ℤ :=
  if x - ⌊x⌋ < 1 / 2 then ⌊x⌋
  else if 1 / 2 < x - ⌊x⌋ then ⌊x⌋ + 1
  else if ⌊x⌋ % 2 = 0 then ⌊x⌋ else ⌊x⌋ + 1

/-- Fuelled binary search for the binade: for positive `q` (within the
fuel's range) it returns the unique `e` with `2 ^ e ≤ q < 2 ^ (e + 1)`. -/
def ilog2Aux : ℕ → ℚ → ℤ
  | 0, _ => 0
  | fuel + 1, q =>
      if q < 1 then ilog2Aux fuel (2 * q) - 1
      else if 2 ≤ q then ilog2Aux fuel (q / 2) + 1
      else 0

/-- The binade exponent `⌊log2 q⌋` of a positive rational; the fuel
`1100` covers every magnitude an IEEE double can take (doubles range
from `2 ^ (-1074)` to below `2 ^ 1024`). -/
def ilog2 (q : ℚ) : ℤ :=
  ilog2Aux 1100 q

/-- Round a rational to the nearest IEEE-754 double (binary64): round to
nearest with a 53-bit significand, ties to even.  Only positive values
in the double's exponent range occur in this development; nonpositive
arguments (the undefined-behaviour side of the cast) are sent to 0. -/
def fl53 (q : ℚ) : ℚ :=
  if q ≤ 0 then 0
  else (rne (q * 2 ^ (52 - ilog2 q)) : ℚ) * 2 ^ (ilog2 q - 52)

/-- The value stored by `*dstAlpha = static_cast<uchar>(window * invSize)`
with `invSize = 1.0 / boxSize`: the reciprocal is the double rounding
`fl53 (1 / boxSize)`, the product is computed in double precision
(`fl53` of the exact product; the `int` value `window` converts to
double exactly), and the cast truncates toward zero, wrapped to an
8-bit channel value.  Because `1.0 / boxSize` is rounded, the result
can be one below `window / boxSize` (for example `boxSize = 49`,
`window = 49` stores `0`).  A negative `window` never reaches the cast
in a defined execution; the model sends the nonpositive product to `0`. -/
def blurEmit (boxSize : ℕ) (window : ℤ) : ℕ :=
  (⌊fl53 ((window : ℚ) * fl53 (1 / (boxSize : ℚ)))⌋).toNat % 256

/-- State of `boxBlurPass` while processing one source row: the flat
pixel offsets of the `srcAlpha`, `left`, `right` and `dstAlpha` pointers,
the running `window`, and the traces of reads and writes made so far. -/
structure BlurState where
  srcOff : ℕ
  left : ℕ
  right : ℕ
  dstPix : ℕ
  window : ℤ
  reads : List ℕ
  writes : List (ℕ × ℕ)

/-- Body of the first loop of `boxBlurPass`
(`for (x = 0; x < radius; ++x)`): accumulate `*srcAlpha` into `window`
and advance `srcAlpha`. -/
def boxBlurStep1 (a : ℕ → ℕ) (s : BlurState) : BlurState :=
  { s with
    srcOff := s.srcOff + 1
    window := s.window + a s.srcOff
    reads := s.reads ++ [s.srcOff] }

/-- First loop of `boxBlurPass`, executed `radius` times. -/
def boxBlurLoop1 (a : ℕ → ℕ) : ℕ → BlurState → BlurState
  | 0, s => s
  | iters + 1, s => boxBlurLoop1 a iters (boxBlurStep1 a s)

/-- Body of the second loop of `boxBlurPass`
(`for (x = 0; x <= radius; ++x)`), the growing left edge: the window
gains `*right` and a value is written. -/
def boxBlurStep2 (a : ℕ → ℕ) (boxSize dstStride : ℕ) (s : BlurState) : BlurState :=
  { s with
    right := s.right + 1
    dstPix := s.dstPix + dstStride
    window := s.window + a s.right
    reads := s.reads ++ [s.right]
    writes := s.writes ++ [(s.dstPix, blurEmit boxSize (s.window + a s.right))] }

/-- Second loop of `boxBlurPass`, executed `radius + 1` times. -/
def boxBlurLoop2 (a : ℕ → ℕ) (boxSize dstStride : ℕ) : ℕ → BlurState → BlurState
  | 0, s => s
  | iters + 1, s => boxBlurLoop2 a boxSize dstStride iters (boxBlurStep2 a boxSize dstStride s)

/-- Body of the third loop of `boxBlurPass`
(`for (x = radius + 1; x < src.width() - radius; ++x)`), the middle: the
window gains `*right` and loses `*left`, and a value is written. -/
def boxBlurStep3 (a : ℕ → ℕ) (boxSize dstStride : ℕ) (s : BlurState) : BlurState :=
  { s with
    left := s.left + 1
    right := s.right + 1
    dstPix := s.dstPix + dstStride
    window := s.window + a s.right - a s.left
    reads := s.reads ++ [s.right, s.left]
    writes := s.writes ++ [(s.dstPix, blurEmit boxSize (s.window + a s.right - a s.left))] }

/-- Third loop of `boxBlurPass`, executed
`src.width() - (2 * radius + 1)` times (clamped at zero). -/
def boxBlurLoop3 (a : ℕ → ℕ) (boxSize dstStride : ℕ) : ℕ → BlurState → BlurState
  | 0, s => s
  | iters + 1, s => boxBlurLoop3 a boxSize dstStride iters (boxBlurStep3 a boxSize dstStride s)

/-- Body of the fourth loop of `boxBlurPass`
(`for (x = src.width() - radius; x < src.width(); ++x)`), the shrinking
right edge: the window loses `*left` and a value is written. -/
def boxBlurStep4 (a : ℕ → ℕ) (boxSize dstStride : ℕ) (s : BlurState) : BlurState :=
  { s with
    left := s.left + 1
    dstPix := s.dstPix + dstStride
    window := s.window - a s.left
    reads := s.reads ++ [s.left]
    writes := s.writes ++ [(s.dstPix, blurEmit boxSize (s.window - a s.left))] }

/-- Fourth loop of `boxBlurPass`.  Counting iterations over the ints of
the source, the loop always executes exactly `radius` times. -/
def boxBlurLoop4 (a : ℕ → ℕ) (boxSize dstStride : ℕ) : ℕ → BlurState → BlurState
  | 0, s => s
  | iters + 1, s => boxBlurLoop4 a boxSize dstStride iters (boxBlurStep4 a boxSize dstStride s)

/-- One iteration of the outer row loop of `boxBlurPass` for source row
`y`: the initial pointers are `srcAlpha = left = y * srcWidth` (flat
pixel offset of `src.scanLine(y)`), `right = left + radius`, and the
destination pointer starts at flat dst pixel `y` and advances by
`dstStride = dst.width()` pixels per write (writing the row transposed).
The middle loop executes `srcWidth - (2 * radius + 1)` times, clamped at
zero exactly as the int comparison of the source clamps it. -/
def boxBlurRow (a : ℕ → ℕ) (srcWidth dstWidth boxSize y : ℕ) : BlurState :=
  let radius := boxSizeToRadius boxSize
  let base := y * srcWidth
  let s0 : BlurState :=
    { srcOff := base, left := base, right := base + radius, dstPix := y,
      window := 0, reads := [], writes := [] }
  let s1 := boxBlurLoop1 a radius s0
  let s2 := boxBlurLoop2 a boxSize dstWidth (radius + 1) s1
  let s3 := boxBlurLoop3 a boxSize dstWidth (srcWidth - (2 * radius + 1)) s2
  boxBlurLoop4 a boxSize dstWidth radius s3

/-- The full access trace of `boxBlurPass`: reads (flat src pixel
offsets) and writes (flat dst pixel offset, value) of all rows, in
program order. -/
def boxBlurPassTrace (a : ℕ → ℕ) (srcWidth srcHeight dstWidth boxSize : ℕ) :
    List ℕ × List (ℕ × ℕ) :=
  (((List.range srcHeight).map fun y => (boxBlurRow a srcWidth dstWidth boxSize y).reads).flatten,
   ((List.range srcHeight).map fun y => (boxBlurRow a srcWidth dstWidth boxSize y).writes).flatten)

/-- Replay a list of `(offset, value)` writes over an alpha buffer. -/
def applyWrites (d : ℕ → ℕ) (ws : List (ℕ × ℕ)) : ℕ → ℕ :=
  ws.foldl (fun f iv => Function.update f iv.1 iv.2) d

/-- The destination alpha buffer after one `boxBlurPass` from a source
buffer `a` of dimensions `srcWidth × srcHeight` into a destination
buffer `d` whose width is `dstWidth`. -/
def boxBlurPassAlpha (a d : ℕ → ℕ) (srcWidth srcHeight dstWidth boxSize : ℕ) : ℕ → ℕ :=
  applyWrites d (boxBlurPassTrace a srcWidth srcHeight dstWidth boxSize).2

/-- Byte position of the alpha channel of flat pixel `p`
(`alphaStride = depth / 8 = 4`, little-endian `alphaOffset = 3`). -/
def alphaByteIndex (p : ℕ) : ℕ :=
  4 * p + 3

/-- View a byte buffer as an alpha buffer: `boxBlurPass` reads alphas
through `srcAlpha = scanLine(y) + alphaOffset` with stride 4. -/
def bytesToAlpha (bytes : ℕ → ℕ) : ℕ → ℕ :=
  fun p => bytes (alphaByteIndex p)

/-- Replay blur writes over a byte buffer: each write stores one byte at
the alpha position of the destination pixel. -/
def applyWritesBytes (bytes : ℕ → ℕ) (ws : List (ℕ × ℕ)) : ℕ → ℕ :=
  ws.foldl (fun f iv => Function.update f (alphaByteIndex iv.1) iv.2) bytes

/-- The destination byte buffer after one `boxBlurPass`, at byte level:
the source is read only through its alpha bytes, and only alpha bytes of
the destination are stored to. -/
def boxBlurPassBytes (srcBytes dstBytes : ℕ → ℕ)
    (srcWidth srcHeight dstWidth boxSize : ℕ) : ℕ → ℕ :=
  applyWritesBytes dstBytes
    (boxBlurPassTrace (bytesToAlpha srcBytes) srcWidth srcHeight dstWidth boxSize).2

/-- The clipped sliding-window sum that the specification describes for
output column `x` of source row `y`: the sum of the source alphas over
the window of width `boxSize = 2 * radius + 1` centred at `x`, clipped
to the row. -/
def clippedWindowSum (a : ℕ → ℕ) (srcWidth y x radius : ℕ) : ℕ :=
  ∑ i in Finset.range srcWidth,
    if x ≤ i + radius ∧ i ≤ x + radius then a (y * srcWidth + i) else 0

/-- The running-window value of the write for output column `x` of
source row `y`, extracted from the loop structure of `boxBlurPass`
(proved below to coincide with the writes of `boxBlurRow`): columns up
to `radius` come from the second loop, the next
`middle = srcWidth - boxSize` columns from the third, the last `radius`
columns from the fourth. -/
def rowWindow (a : ℕ → ℕ) (srcWidth boxSize y x : ℕ) : ℕ :=
  let radius := boxSizeToRadius boxSize
  let middle := srcWidth - (2 * radius + 1)
  let base := y * srcWidth
  if x ≤ radius then
    ∑ i in Finset.range (radius + x + 1), a (base + i)
  else if x < radius + 1 + middle then
    ∑ i in Finset.Ico (x - radius) (x + radius + 1), a (base + i)
  else
    ∑ i in Finset.Ico (x - radius) (2 * radius + 1 + middle), a (base + i)

/-- A `QImage` as used by `boxBlurAlpha`: dimensions plus alpha data
over flat pixel indices. -/
structure Image where
  width : ℕ
  height : ℕ
  alpha : ℕ → ℕ

/-- One `boxBlurPass(src, dst, boxSize)` call at the image level: the
destination keeps its dimensions and its alpha data is overwritten by
the recorded writes of the pass. -/
def boxBlurPassImg (src dst : Image) (boxSize : ℕ) : Image :=
  { width := dst.width
    height := dst.height
    alpha := applyWrites dst.alpha
      (boxBlurPassTrace src.alpha src.width src.height dst.width boxSize).2 }

/-- Model of `boxBlurAlpha(image, radius, numIterations)`: one scratch
buffer `tmp` with transposed dimensions (its initial contents `tmpData`
are the uninitialized allocation), then for each computed box size one
pass `image → tmp` followed by one pass `tmp → image`. -/
def boxBlurAlpha (image : Image) (radius numIterations : ℕ) (tmpData : ℕ → ℕ) : Image :=
  let tmp : Image := { width := image.height, height := image.width, alpha := tmpData }
  ((computeBoxSizes radius numIterations).foldl
    (fun p boxSize =>
      let t := boxBlurPassImg p.1 p.2 boxSize.toNat
      let i := boxBlurPassImg t p.1 boxSize.toNat
      (i, t))
    (image, tmp)).1

/-- A `QPoint` with integer coordinates. -/
structure QPoint where
  x : ℤ
  y : ℤ
deriving DecidableEq

/-- A `QMargins` value. -/
structure QMargins where
  left : ℤ
  top : ℤ
  right : ℤ
  bottom : ℤ
deriving DecidableEq

/-- A `QRect` as position plus size. -/
structure QRect where
  x : ℤ
  y : ℤ
  w : ℤ
  h : ℤ
deriving DecidableEq

/-- `QRect::adjusted(dx1, dy1, dx2, dy2)`. -/
def QRect.adjusted (r : QRect) (dx1 dy1 dx2 dy2 : ℤ) : QRect :=
  { x := r.x + dx1, y := r.y + dy1, w := r.w - dx1 + dx2, h := r.h - dy1 + dy2 }

/-- `QRect::operator-(QMargins)` (margins removed). -/
def QRect.marginsRemoved (r : QRect) (m : QMargins) : QRect :=
  { x := r.x + m.left, y := r.y + m.top,
    w := r.w - m.left - m.right, h := r.h - m.top - m.bottom }

/-- One shadow layer of `Decoration.cc` (`struct ShadowParams`). -/
structure ShadowParams where
  offset : QPoint
  radius : ℤ
  opacity : ℚ

/-- The composite shadow parameters of `Decoration.cc`
(`struct CompositeShadowParams`). -/
structure CompositeShadowParams where
  offset : QPoint
  shadow1 : ShadowParams
  shadow2 : ShadowParams

/-- The built-in composite shadow parameters `s_shadowParams`. -/
def s_shadowParams : CompositeShadowParams :=
  { offset := { x := 0, y := 18 }
    shadow1 := { offset := { x := 0, y := 0 }, radius := 64, opacity := 0.8 }
    shadow2 := { offset := { x := 0, y := -10 }, radius := 24, opacity := 0.1 } }

/-- `shadowSize` in `Decoration::updateShadow`: the larger of the two
layer radii. -/
def updateShadowSize : ℤ :=
  max s_shadowParams.shadow1.radius s_shadowParams.shadow2.radius

/-- `box` in `Decoration::updateShadow`. -/
def updateShadowBox : QRect :=
  { x := updateShadowSize, y := updateShadowSize,
    w := 2 * updateShadowSize + 1, h := 2 * updateShadowSize + 1 }

/-- `rect` in `Decoration::updateShadow`. -/
def updateShadowRect : QRect :=
  updateShadowBox.adjusted (-updateShadowSize) (-updateShadowSize)
    updateShadowSize updateShadowSize

/-- `padding` in `Decoration::updateShadow`. -/
def updateShadowPadding : QMargins :=
  { left := updateShadowSize - s_shadowParams.offset.x
    top := updateShadowSize - s_shadowParams.offset.y
    right := updateShadowSize + s_shadowParams.offset.x
    bottom := updateShadowSize + s_shadowParams.offset.y }

/-- `innerRect` in `Decoration::updateShadow` (`rect - padding`), the
rectangle masked out of the shadow bitmap. -/
def updateShadowInnerRect : QRect :=
  updateShadowRect.marginsRemoved updateShadowPadding

/-! ### General helper lemmas -/

theorem list_sum_map_range {M : Type} [AddCommMonoid M] (f : ℕ → M) (n : ℕ) :
    ((List.range n).map f).sum = ∑ i in Finset.range n, f i := by
  induction n with
  | zero => simp
  | succ k ih =>
      rw [List.range_succ, List.map_append, List.sum_append, Finset.sum_range_succ, ih]
      simp

theorem applyWrites_cons (d : ℕ → ℕ) (p : ℕ × ℕ) (ws : List (ℕ × ℕ)) :
    applyWrites d (p :: ws) = applyWrites (Function.update d p.1 p.2) ws := rfl

theorem applyWrites_notMem (d : ℕ → ℕ) (ws : List (ℕ × ℕ)) (i : ℕ)
    (h : ∀ p ∈ ws, p.1 ≠ i) : applyWrites d ws i = d i := by
  induction ws generalizing d with
  | nil => rfl
  | cons p t ih =>
      rw [applyWrites_cons, ih _ fun q hq => h q (List.mem_cons_of_mem p hq)]
      exact Function.update_noteq (Ne.symm (h p (List.mem_cons_self p t))) p.2 d

theorem applyWrites_eq_of_mem_unique (d : ℕ → ℕ) (ws : List (ℕ × ℕ)) (i v : ℕ)
    (hmem : (i, v) ∈ ws) (huniq : ∀ p ∈ ws, p.1 = i → p.2 = v) :
    applyWrites d ws i = v := by
  induction ws generalizing d with
  | nil => cases hmem
  | cons p t ih =>
      rw [applyWrites_cons]
      by_cases hmt : (i, v) ∈ t
      · exact ih _ hmt fun q hq => huniq q (List.mem_cons_of_mem p hq)
      · have hp : p = (i, v) := by
          rcases List.mem_cons.mp hmem with h | h
          · exact h.symm
          · exact absurd h hmt
        have hnone : ∀ q ∈ t, q.1 ≠ i := by
          intro q hq he
          have hv : q.2 = v := huniq q (List.mem_cons_of_mem p hq) he
          have hq2 : (q.1, q.2) ∈ t := by simpa using hq
          rw [he, hv] at hq2
          exact hmt hq2
        rw [applyWrites_notMem _ _ _ hnone, hp]
        exact Function.update_same i v d

theorem applyWritesBytes_nonalpha (bytes : ℕ → ℕ) (ws : List (ℕ × ℕ)) (i : ℕ)
    (h : i % 4 ≠ 3) : applyWritesBytes bytes ws i = bytes i := by
  induction ws generalizing bytes with
  | nil => rfl
  | cons p t ih =>
      have hc : applyWritesBytes bytes (p :: t)
          = applyWritesBytes (Function.update bytes (alphaByteIndex p.1) p.2) t := rfl
      rw [hc, ih]
      have hne : i ≠ alphaByteIndex p.1 := by unfold alphaByteIndex; omega
      exact Function.update_noteq hne p.2 bytes

/-! ### Closed forms for the four loops of `boxBlurPass` -/

theorem boxBlurLoop1_succ (a : ℕ → ℕ) (n : ℕ) (s : BlurState) :
    boxBlurLoop1 a (n + 1) s = boxBlurStep1 a (boxBlurLoop1 a n s) := by
  induction n generalizing s with
  | zero => rfl
  | succ k ih =>
      rw [show boxBlurLoop1 a (k + 1 + 1) s
          = boxBlurLoop1 a (k + 1) (boxBlurStep1 a s) from rfl, ih,
        show boxBlurLoop1 a (k + 1) s
          = boxBlurLoop1 a k (boxBlurStep1 a s) from rfl]

theorem boxBlurLoop2_succ (a : ℕ → ℕ) (b dW n : ℕ) (s : BlurState) :
    boxBlurLoop2 a b dW (n + 1) s = boxBlurStep2 a b dW (boxBlurLoop2 a b dW n s) := by
  induction n generalizing s with
  | zero => rfl
  | succ k ih =>
      rw [show boxBlurLoop2 a b dW (k + 1 + 1) s
          = boxBlurLoop2 a b dW (k + 1) (boxBlurStep2 a b dW s) from rfl, ih,
        show boxBlurLoop2 a b dW (k + 1) s
          = boxBlurLoop2 a b dW k (boxBlurStep2 a b dW s) from rfl]

theorem boxBlurLoop3_succ (a : ℕ → ℕ) (b dW n : ℕ) (s : BlurState) :
    boxBlurLoop3 a b dW (n + 1) s = boxBlurStep3 a b dW (boxBlurLoop3 a b dW n s) := by
  induction n generalizing s with
  | zero => rfl
  | succ k ih =>
      rw [show boxBlurLoop3 a b dW (k + 1 + 1) s
          = boxBlurLoop3 a b dW (k + 1) (boxBlurStep3 a b dW s) from rfl, ih,
        show boxBlurLoop3 a b dW (k + 1) s
          = boxBlurLoop3 a b dW k (boxBlurStep3 a b dW s) from rfl]

theorem boxBlurLoop4_succ (a : ℕ → ℕ) (b dW n : ℕ) (s : BlurState) :
    boxBlurLoop4 a b dW (n + 1) s = boxBlurStep4 a b dW (boxBlurLoop4 a b dW n s) := by
  induction n generalizing s with
  | zero => rfl
  | succ k ih =>
      rw [show boxBlurLoop4 a b dW (k + 1 + 1) s
          = boxBlurLoop4 a b dW (k + 1) (boxBlurStep4 a b dW s) from rfl, ih,
        show boxBlurLoop4 a b dW (k + 1) s
          = boxBlurLoop4 a b dW k (boxBlurStep4 a b dW s) from rfl]

theorem boxBlurLoop1_spec (a : ℕ → ℕ) (n : ℕ) (s : BlurState) :
    boxBlurLoop1 a n s =
      { s with
        srcOff := s.srcOff + n
        window := s.window + ∑ i in Finset.range n, (a (s.srcOff + i) : ℤ)
        reads := s.reads ++ (List.range n).map fun i => s.srcOff + i } := by
  induction n with
  | zero => simp [boxBlurLoop1]
  | succ k ih =>
      rw [boxBlurLoop1_succ, ih]
      simp [boxBlurStep1, Finset.sum_range_succ, List.range_succ, add_assoc, Nat.add_assoc]

theorem boxBlurLoop2_spec (a : ℕ → ℕ) (b dW n : ℕ) (s : BlurState) :
    boxBlurLoop2 a b dW n s =
      { s with
        right := s.right + n
        dstPix := s.dstPix + n * dW
        window := s.window + ∑ i in Finset.range n, (a (s.right + i) : ℤ)
        reads := s.reads ++ (List.range n).map (fun i => s.right + i)
        writes := s.writes ++ (List.range n).map fun j =>
          (s.dstPix + j * dW,
            blurEmit b (s.window + ∑ i in Finset.range (j + 1), (a (s.right + i) : ℤ))) } := by
  induction n with
  | zero => simp [boxBlurLoop2]
  | succ k ih =>
      rw [boxBlurLoop2_succ, ih]
      simp only [boxBlurStep2, List.range_succ, List.map_append, List.map_cons, List.map_nil,
        Finset.sum_range_succ]
      refine BlurState.mk.injEq _ _ _ _ _ _ _ _ _ _ _ _ _ _ |>.mpr ?_
      refine ⟨rfl, rfl, by omega, by ring, by ring, by simp [Nat.add_assoc], ?_⟩
      simp only [List.append_assoc, List.append_cancel_left_eq, List.cons.injEq, Prod.mk.injEq]
      exact ⟨⟨by ring, by rw [add_assoc]⟩, trivial⟩

theorem boxBlurLoop3_spec (a : ℕ → ℕ) (b dW n : ℕ) (s : BlurState) :
    boxBlurLoop3 a b dW n s =
      { s with
        left := s.left + n
        right := s.right + n
        dstPix := s.dstPix + n * dW
        window := s.window + ∑ i in Finset.range n, (a (s.right + i) : ℤ)
          - ∑ i in Finset.range n, (a (s.left + i) : ℤ)
        reads := s.reads ++ ((List.range n).map fun j => [s.right + j, s.left + j]).flatten
        writes := s.writes ++ (List.range n).map fun j =>
          (s.dstPix + j * dW,
            blurEmit b (s.window + ∑ i in Finset.range (j + 1), (a (s.right + i) : ℤ)
              - ∑ i in Finset.range (j + 1), (a (s.left + i) : ℤ))) } := by
  induction n with
  | zero => simp [boxBlurLoop3]
  | succ k ih =>
      rw [boxBlurLoop3_succ, ih]
      simp only [boxBlurStep3, List.range_succ, List.map_append, List.map_cons, List.map_nil,
        List.flatten_append, List.flatten_cons, List.flatten_nil, Finset.sum_range_succ]
      refine BlurState.mk.injEq _ _ _ _ _ _ _ _ _ _ _ _ _ _ |>.mpr ?_
      refine ⟨rfl, by omega, by omega, by ring, by ring, by simp [Nat.add_assoc], ?_⟩
      simp only [List.append_assoc, List.append_cancel_left_eq, List.cons.injEq, Prod.mk.injEq]
      exact ⟨⟨by ring, by congr 1; ring⟩, trivial⟩

theorem boxBlurLoop4_spec (a : ℕ → ℕ) (b dW n : ℕ) (s : BlurState) :
    boxBlurLoop4 a b dW n s =
      { s with
        left := s.left + n
        dstPix := s.dstPix + n * dW
        window := s.window - ∑ i in Finset.range n, (a (s.left + i) : ℤ)
        reads := s.reads ++ (List.range n).map (fun i => s.left + i)
        writes := s.writes ++ (List.range n).map fun j =>
          (s.dstPix + j * dW,
            blurEmit b (s.window - ∑ i in Finset.range (j + 1), (a (s.left + i) : ℤ))) } := by
  induction n with
  | zero => simp [boxBlurLoop4]
  | succ k ih =>
      rw [boxBlurLoop4_succ, ih]
      simp only [boxBlurStep4, List.range_succ, List.map_append, List.map_cons, List.map_nil,
        Finset.sum_range_succ]
      refine BlurState.mk.injEq _ _ _ _ _ _ _ _ _ _ _ _ _ _ |>.mpr ?_
      refine ⟨rfl, by omega, rfl, by ring, by ring, by simp [Nat.add_assoc], ?_⟩
      simp only [List.append_assoc, List.append_cancel_left_eq, List.cons.injEq, Prod.mk.injEq]
      exact ⟨⟨by ring, by congr 1; ring⟩, trivial⟩

/-! ### Sum helpers used to convert the loop windows into window sums
over absolute pixel indices -/

theorem sum_range_abs (a : ℕ → ℕ) (c n : ℕ) :
    ∑ i in Finset.range n, (a (c + i) : ℤ) = ∑ i in Finset.Ico c (c + n), (a i : ℤ) := by
  rw [Finset.sum_Ico_eq_sum_range]
  have h : c + n - c = n := by omega
  rw [h]

theorem sum_Ico_abs (a : ℕ → ℕ) (c lo hi : ℕ) :
    ∑ i in Finset.Ico lo hi, (a (c + i) : ℤ)
      = ∑ i in Finset.Ico (c + lo) (c + hi), (a i : ℤ) := by
  rw [Finset.sum_Ico_eq_sum_range, Finset.sum_Ico_eq_sum_range]
  have h : c + hi - (c + lo) = hi - lo := by omega
  rw [h]
  refine Finset.sum_congr rfl fun i _ => ?_
  congr 2
  omega

/-! ### Characterization of the writes of one row of `boxBlurPass` -/

theorem boxBlurRow_writes (a : ℕ → ℕ) (w dW b y : ℕ) :
    (boxBlurRow a w dW b y).writes =
      (List.range (boxSizeToRadius b + 1 + ((w - (2 * boxSizeToRadius b + 1)) + boxSizeToRadius b))).map
        fun x => (y + x * dW, blurEmit b ((rowWindow a w b y x : ℕ) : ℤ)) := by
  rw [boxBlurRow]
  simp only [boxBlurLoop1_spec, boxBlurLoop2_spec, boxBlurLoop3_spec, boxBlurLoop4_spec]
  simp only [List.range_add, List.map_append, List.map_map, List.nil_append, List.append_assoc]
  congr 1
  · refine List.map_congr_left fun j hj => ?_
    have hj1 : j < boxSizeToRadius b := List.mem_range.mp hj
    simp only [Prod.mk.injEq]
    refine ⟨trivial, ?_⟩
    congr 1
    simp only [rowWindow]
    rw [if_pos (by omega : j ≤ boxSizeToRadius b)]
    push_cast
    simp only [zero_add, sum_range_abs]
    rw [Finset.sum_Ico_consecutive (fun i => (a i : ℤ))
      (show y * w ≤ y * w + boxSizeToRadius b by omega)
      (show y * w + boxSizeToRadius b ≤ y * w + boxSizeToRadius b + (j + 1) by omega)]
    congr 1
    congr 1
    omega
  congr 1
  · refine List.map_congr_left fun j hj => ?_
    have hj1 : j < 1 := List.mem_range.mp hj
    simp only [Function.comp_apply, Prod.mk.injEq]
    refine ⟨trivial, ?_⟩
    congr 1
    simp only [rowWindow]
    rw [if_pos (by omega : boxSizeToRadius b + j ≤ boxSizeToRadius b)]
    push_cast
    simp only [zero_add, sum_range_abs]
    rw [Finset.sum_Ico_consecutive (fun i => (a i : ℤ))
      (show y * w ≤ y * w + boxSizeToRadius b by omega)
      (show y * w + boxSizeToRadius b ≤ y * w + boxSizeToRadius b + (boxSizeToRadius b + j + 1) by omega)]
    congr 1
    congr 1
    omega
  congr 1
  · refine List.map_congr_left fun j hj => ?_
    have hj1 : j < w - (2 * boxSizeToRadius b + 1) := List.mem_range.mp hj
    simp only [Function.comp_apply, Prod.mk.injEq]
    refine ⟨by ring, ?_⟩
    congr 1
    simp only [rowWindow]
    rw [if_neg (by omega), if_pos (by omega)]
    push_cast
    simp only [zero_add, sum_range_abs, sum_Ico_abs]
    rw [show y * w + (boxSizeToRadius b + 1 + j - boxSizeToRadius b) = y * w + (j + 1) by omega]
    rw [Finset.sum_Ico_consecutive (fun i => (a i : ℤ))
      (show y * w ≤ y * w + boxSizeToRadius b by omega)
      (show y * w + boxSizeToRadius b
        ≤ y * w + boxSizeToRadius b + (boxSizeToRadius b + 1) by omega)]
    rw [Finset.sum_Ico_consecutive (fun i => (a i : ℤ))
      (show y * w ≤ y * w + boxSizeToRadius b + (boxSizeToRadius b + 1) by omega)
      (show y * w + boxSizeToRadius b + (boxSizeToRadius b + 1)
        ≤ y * w + boxSizeToRadius b + (boxSizeToRadius b + 1) + (j + 1) by omega)]
    rw [sub_eq_iff_eq_add']
    rw [Finset.sum_Ico_consecutive (fun i => (a i : ℤ))
      (show y * w ≤ y * w + (j + 1) by omega)
      (show y * w + (j + 1)
        ≤ y * w + (boxSizeToRadius b + 1 + j + boxSizeToRadius b + 1) by omega)]
    congr 1
    congr 1
    omega
  · refine List.map_congr_left fun j hj => ?_
    have hj1 : j < boxSizeToRadius b := List.mem_range.mp hj
    simp only [Function.comp_apply, Prod.mk.injEq]
    refine ⟨by ring, ?_⟩
    congr 1
    simp only [rowWindow]
    rw [if_neg (by omega), if_neg (by omega)]
    push_cast
    simp only [zero_add, sum_range_abs, sum_Ico_abs]
    rw [show y * w + (boxSizeToRadius b + 1 + (w - (2 * boxSizeToRadius b + 1) + j) - boxSizeToRadius b)
        = y * w + (w - (2 * boxSizeToRadius b + 1)) + (j + 1) by omega]
    rw [Finset.sum_Ico_consecutive (fun i => (a i : ℤ))
      (show y * w ≤ y * w + boxSizeToRadius b by omega)
      (show y * w + boxSizeToRadius b
        ≤ y * w + boxSizeToRadius b + (boxSizeToRadius b + 1) by omega)]
    rw [Finset.sum_Ico_consecutive (fun i => (a i : ℤ))
      (show y * w ≤ y * w + boxSizeToRadius b + (boxSizeToRadius b + 1) by omega)
      (show y * w + boxSizeToRadius b + (boxSizeToRadius b + 1)
        ≤ y * w + boxSizeToRadius b + (boxSizeToRadius b + 1) + (w - (2 * boxSizeToRadius b + 1)) by omega)]
    rw [sub_eq_iff_eq_add', sub_eq_iff_eq_add']
    rw [Finset.sum_Ico_consecutive (fun i => (a i : ℤ))
      (show y * w + (w - (2 * boxSizeToRadius b + 1))
        ≤ y * w + (w - (2 * boxSizeToRadius b + 1)) + (j + 1) by omega)
      (show y * w + (w - (2 * boxSizeToRadius b + 1)) + (j + 1)
        ≤ y * w + (2 * boxSizeToRadius b + 1 + (w - (2 * boxSizeToRadius b + 1))) by omega)]
    rw [Finset.sum_Ico_consecutive (fun i => (a i : ℤ))
      (show y * w ≤ y * w + (w - (2 * boxSizeToRadius b + 1)) by omega)
      (show y * w + (w - (2 * boxSizeToRadius b + 1))
        ≤ y * w + (2 * boxSizeToRadius b + 1 + (w - (2 * boxSizeToRadius b + 1))) by omega)]
    congr 1
    congr 1
    omega

/-! ### Bounds on the access offsets of one row -/

theorem boxBlurRow_reads_bound (a : ℕ → ℕ) (w dW b y : ℕ)
    (hodd : b % 2 = 1) (hbw : b ≤ w) :
    ∀ i ∈ (boxBlurRow a w dW b y).reads, i < y * w + w := by
  have hr : 2 * boxSizeToRadius b + 1 = b := by unfold boxSizeToRadius; omega
  rw [boxBlurRow]
  simp only [boxBlurLoop1_spec, boxBlurLoop2_spec, boxBlurLoop3_spec, boxBlurLoop4_spec]
  intro i hi
  simp only [List.nil_append, List.append_assoc, List.mem_append, List.mem_map,
    List.mem_range, List.mem_flatten] at hi
  rcases hi with ⟨j, hj, rfl⟩ | ⟨j, hj, rfl⟩ | ⟨l, ⟨⟨j, hj, rfl⟩, hl⟩⟩ | ⟨j, hj, rfl⟩
  · omega
  · omega
  · simp only [List.mem_cons, List.mem_singleton] at hl
    rcases hl with rfl | rfl | h
    · omega
    · omega
    · cases h
  · omega

theorem boxBlurRow_writes_count (w b : ℕ) (hodd : b % 2 = 1) (hbw : b ≤ w) :
    boxSizeToRadius b + 1 + ((w - (2 * boxSizeToRadius b + 1)) + boxSizeToRadius b) = w := by
  unfold boxSizeToRadius
  omega

/-! ### The written values are clipped window averages -/

theorem clippedWindowSum_eq_Ico (a : ℕ → ℕ) (w y x r : ℕ) :
    clippedWindowSum a w y x r
      = ∑ i in Finset.Ico (x - r) (min w (x + r + 1)), a (y * w + i) := by
  rw [clippedWindowSum, ← Finset.sum_filter]
  refine Finset.sum_congr ?_ fun i _ => rfl
  ext i
  simp only [Finset.mem_filter, Finset.mem_range, Finset.mem_Ico, lt_min_iff]
  omega

theorem rowWindow_eq_clipped (a : ℕ → ℕ) (w b y x : ℕ)
    (hodd : b % 2 = 1) (hbw : b ≤ w) :
    rowWindow a w b y x = clippedWindowSum a w y x (boxSizeToRadius b) := by
  have hr : 2 * boxSizeToRadius b + 1 = b := by unfold boxSizeToRadius; omega
  rw [clippedWindowSum_eq_Ico, rowWindow]
  split_ifs with h1 h2
  · rw [show x - boxSizeToRadius b = 0 by omega,
      show min w (x + boxSizeToRadius b + 1) = x + boxSizeToRadius b + 1 by omega,
      show boxSizeToRadius b + x + 1 = x + boxSizeToRadius b + 1 by omega]
    rw [Finset.range_eq_Ico]
  · rw [show min w (x + boxSizeToRadius b + 1) = x + boxSizeToRadius b + 1 by omega]
  · rw [show min w (x + boxSizeToRadius b + 1) = w by omega,
      show 2 * boxSizeToRadius b + 1 + (w - (2 * boxSizeToRadius b + 1)) = w by omega]

theorem rowWindow_le (a : ℕ → ℕ) (w b y x : ℕ)
    (hodd : b % 2 = 1) (ha : ∀ i, a i ≤ 255) :
    rowWindow a w b y x ≤ 255 * b := by
  have hr : 2 * boxSizeToRadius b + 1 = b := by unfold boxSizeToRadius; omega
  rw [rowWindow]
  split_ifs with h1 h2
  · calc ∑ i in Finset.range (boxSizeToRadius b + x + 1), a (y * w + i)
        ≤ (Finset.range (boxSizeToRadius b + x + 1)).card * 255 :=
          Finset.sum_le_card_nsmul _ _ 255 fun i _ => ha _
      _ ≤ 255 * b := by rw [Finset.card_range]; omega
  · calc ∑ i in Finset.Ico (x - boxSizeToRadius b) (x + boxSizeToRadius b + 1), a (y * w + i)
        ≤ (Finset.Ico (x - boxSizeToRadius b) (x + boxSizeToRadius b + 1)).card * 255 :=
          Finset.sum_le_card_nsmul _ _ 255 fun i _ => ha _
      _ ≤ 255 * b := by rw [Nat.card_Ico]; omega
  · calc ∑ i in Finset.Ico (x - boxSizeToRadius b)
          (2 * boxSizeToRadius b + 1 + (w - (2 * boxSizeToRadius b + 1))), a (y * w + i)
        ≤ (Finset.Ico (x - boxSizeToRadius b)
            (2 * boxSizeToRadius b + 1 + (w - (2 * boxSizeToRadius b + 1)))).card * 255 :=
          Finset.sum_le_card_nsmul _ _ 255 fun i _ => ha _
      _ ≤ 255 * b := by rw [Nat.card_Ico]; omega

/-! ### Facts about the IEEE-754 double model of `window * invSize` -/

theorem rne_abs_le (x : ℚ) : |(rne x : ℚ) - x| ≤ 1 / 2 := by
  have h1 : (⌊x⌋ : ℚ) ≤ x := Int.floor_le x
  have h2 : x < (⌊x⌋ : ℚ) + 1 := Int.lt_floor_add_one x
  rw [rne]
  split_ifs with hlt hgt hev
  · rw [abs_le]; constructor <;> linarith
  · rw [abs_le]; push_cast; constructor <;> linarith
  · rw [abs_le]; constructor <;> linarith
  · rw [abs_le]; push_cast; constructor <;> linarith

theorem ilog2Aux_spec (f : ℕ) : ∀ q : ℚ, (2 : ℚ) ^ (-(f : ℤ)) ≤ q →
    q < (2 : ℚ) ^ ((f : ℤ) + 1) →
    (2 : ℚ) ^ ilog2Aux f q ≤ q ∧ q < (2 : ℚ) ^ (ilog2Aux f q + 1) := by
  induction f with
  | zero =>
      intro q h1 h2
      simp only [Nat.cast_zero, neg_zero, zpow_zero, zero_add, zpow_one] at h1 h2
      simp only [ilog2Aux, zpow_zero, zero_add, zpow_one]
      exact ⟨h1, h2⟩
  | succ k ih =>
      intro q h1 h2
      have hcast1 : -((k + 1 : ℕ) : ℤ) = -(k : ℤ) - 1 := by push_cast; ring
      have hcast2 : ((k + 1 : ℕ) : ℤ) + 1 = (k : ℤ) + 1 + 1 := by push_cast; ring
      rw [hcast1] at h1
      rw [hcast2] at h2
      have htwo : (2 : ℚ) ≠ 0 := two_ne_zero
      simp only [ilog2Aux]
      split_ifs with hq1 hq2
      · have he : (2 : ℚ) ^ (-(k : ℤ)) = (2 : ℚ) ^ (-(k : ℤ) - 1) * 2 := by
          rw [← zpow_add_one₀ htwo]
          norm_num
        have hlo : (2 : ℚ) ^ (-(k : ℤ)) ≤ 2 * q := by rw [he]; linarith
        have h21 : (2 : ℚ) ^ (1 : ℤ) = 2 := zpow_one 2
        have hmono : (2 : ℚ) ^ (1 : ℤ) ≤ (2 : ℚ) ^ ((k : ℤ) + 1) :=
          zpow_le_zpow_right₀ one_le_two (by omega)
        have hhi : 2 * q < (2 : ℚ) ^ ((k : ℤ) + 1) := by
          have h2q : 2 * q < 2 := by linarith
          linarith [hmono, h21]
        obtain ⟨ha1, ha2⟩ := ih (2 * q) hlo hhi
        set i := ilog2Aux k (2 * q) with hi
        have e1 : (2 : ℚ) ^ i = (2 : ℚ) ^ (i - 1) * 2 := by
          rw [← zpow_add_one₀ htwo]
          norm_num
        have e2 : (2 : ℚ) ^ (i + 1) = (2 : ℚ) ^ i * 2 := by
          rw [← zpow_add_one₀ htwo]
        have e3 : i - 1 + 1 = i := by ring
        rw [e3]
        constructor
        · rw [e1] at ha1; linarith
        · rw [e2, e1] at ha2; linarith
      · have h21 : (2 : ℚ) ^ (1 : ℤ) = 2 := zpow_one 2
        have hz : (2 : ℚ) ^ (0 : ℤ) = 1 := zpow_zero 2
        have hmono : (2 : ℚ) ^ (-(k : ℤ)) ≤ (2 : ℚ) ^ (0 : ℤ) :=
          zpow_le_zpow_right₀ one_le_two (by omega)
        have hlo : (2 : ℚ) ^ (-(k : ℤ)) ≤ q / 2 := by
          have hone : (1 : ℚ) ≤ q / 2 := by linarith
          linarith [hmono, hz]
        have he : (2 : ℚ) ^ ((k : ℤ) + 1 + 1) = (2 : ℚ) ^ ((k : ℤ) + 1) * 2 := by
          rw [← zpow_add_one₀ htwo]
        have hhi : q / 2 < (2 : ℚ) ^ ((k : ℤ) + 1) := by
          rw [he] at h2
          linarith
        obtain ⟨ha1, ha2⟩ := ih (q / 2) hlo hhi
        set i := ilog2Aux k (q / 2) with hi
        have e1 : (2 : ℚ) ^ (i + 1) = (2 : ℚ) ^ i * 2 := by
          rw [← zpow_add_one₀ htwo]
        have e2 : (2 : ℚ) ^ (i + 1 + 1) = (2 : ℚ) ^ (i + 1) * 2 := by
          rw [← zpow_add_one₀ htwo]
        constructor
        · rw [e1]; linarith
        · rw [e2, e1]; linarith
      · push_neg at hq1 hq2
        simp only [zpow_zero, zero_add, zpow_one]
        exact ⟨hq1, hq2⟩

theorem ilog2_spec (q : ℚ) (hlo : 1 / 2 ^ 1100 ≤ q) (hhi : q < 2 ^ 1100) :
    (2 : ℚ) ^ ilog2 q ≤ q ∧ q < (2 : ℚ) ^ (ilog2 q + 1) := by
  have h1 : (2 : ℚ) ^ (-((1100 : ℕ) : ℤ)) ≤ q := by
    have he : (2 : ℚ) ^ (-((1100 : ℕ) : ℤ)) = 1 / 2 ^ 1100 := by
      norm_num
    rw [he]
    exact hlo
  have h2 : q < (2 : ℚ) ^ (((1100 : ℕ) : ℤ) + 1) := by
    have he : (2 : ℚ) ^ (((1100 : ℕ) : ℤ) + 1) = 2 ^ 1101 := by
      norm_num
    rw [he]
    calc q < 2 ^ 1100 := hhi
      _ ≤ (2 : ℚ) ^ 1101 := by norm_num
  exact ilog2Aux_spec 1100 q h1 h2

theorem ilog2_eq_of (q : ℚ) (e : ℤ) (hlo : 1 / 2 ^ 1100 ≤ q) (hhi : q < 2 ^ 1100)
    (h1 : (2 : ℚ) ^ e ≤ q) (h2 : q < (2 : ℚ) ^ (e + 1)) : ilog2 q = e := by
  obtain ⟨ha1, ha2⟩ := ilog2_spec q hlo hhi
  by_contra hne
  rcases lt_or_gt_of_ne hne with h | h
  · have hm : (2 : ℚ) ^ (ilog2 q + 1) ≤ (2 : ℚ) ^ e :=
      zpow_le_zpow_right₀ one_le_two (by omega)
    linarith
  · have hm : (2 : ℚ) ^ (e + 1) ≤ (2 : ℚ) ^ (ilog2 q) :=
      zpow_le_zpow_right₀ one_le_two (by omega)
    linarith

theorem fl53_err (q : ℚ) (h0 : 0 < q) (hlo : 1 / 2 ^ 1100 ≤ q) (hhi : q < 2 ^ 1100) :
    |fl53 q - q| ≤ q * (1 / 2 ^ 53) := by
  obtain ⟨he1, he2⟩ := ilog2_spec q hlo hhi
  rw [fl53, if_neg (not_le.mpr h0)]
  set e := ilog2 q with hedef
  set x := q * 2 ^ (52 - e) with hx
  have htwo : (2 : ℚ) ≠ 0 := two_ne_zero
  have hpow_pos : (0 : ℚ) < (2 : ℚ) ^ (e - 52) := by positivity
  have hprod : (2 : ℚ) ^ (52 - e) * (2 : ℚ) ^ (e - 52) = 1 := by
    rw [← zpow_add₀ htwo]
    norm_num
  have hqx : x * (2 : ℚ) ^ (e - 52) = q := by
    rw [hx, mul_assoc, hprod, mul_one]
  have key : |(rne x : ℚ) - x| ≤ 1 / 2 := rne_abs_le x
  have hstep : |(rne x : ℚ) * (2 : ℚ) ^ (e - 52) - q| ≤ (1 / 2) * (2 : ℚ) ^ (e - 52) := by
    rw [← hqx, ← sub_mul, abs_mul, abs_of_pos hpow_pos]
    exact mul_le_mul_of_nonneg_right key (le_of_lt hpow_pos)
  have hb1 : (1 / 2 : ℚ) * (2 : ℚ) ^ (e - 52) = (2 : ℚ) ^ (e - 53) := by
    rw [show (e : ℤ) - 52 = (e - 53) + 1 by ring, zpow_add_one₀ htwo]
    ring
  have hb2 : (2 : ℚ) ^ (e - 53) = (2 : ℚ) ^ e * (2 : ℚ) ^ (-53 : ℤ) := by
    rw [← zpow_add₀ htwo]
    congr 1
  have hb3 : (2 : ℚ) ^ (-53 : ℤ) = 1 / 2 ^ 53 := by norm_num
  have hbound : (1 / 2 : ℚ) * (2 : ℚ) ^ (e - 52) ≤ q * (1 / 2 ^ 53) := by
    rw [hb1, hb2, hb3]
    have h3 : (0 : ℚ) < (1 / 2 ^ 53 : ℚ) := by norm_num
    exact mul_le_mul_of_nonneg_right he1 (le_of_lt h3)
  exact le_trans hstep hbound

theorem blurEmit_bounds (b S : ℕ) (hb : 1 ≤ b) (hbB : b ≤ 2 ^ 31) (hS : S ≤ 255 * b) :
    blurEmit b (S : ℤ) ≤ S / b ∧ S / b ≤ blurEmit b (S : ℤ) + 1 := by
  rcases Nat.eq_zero_or_pos S with hS0 | hS1
  · subst hS0
    have hz : blurEmit b ((0 : ℕ) : ℤ) = 0 := by
      rw [blurEmit]
      norm_num
      rw [fl53, if_pos (le_refl (0 : ℚ))]
      norm_num
    rw [hz]
    simp
  · have hb0 : 0 < b := hb
    have hbQ : (0 : ℚ) < (b : ℚ) := by exact_mod_cast hb0
    have hbQ1 : (1 : ℚ) ≤ (b : ℚ) := by exact_mod_cast hb
    have hbB' : (b : ℚ) ≤ 2 ^ 31 := by exact_mod_cast hbB
    have hSQ1 : (1 : ℚ) ≤ (S : ℚ) := by exact_mod_cast hS1
    have hSQ0 : (0 : ℚ) ≤ (S : ℚ) := by positivity
    have hSb : (S : ℚ) ≤ 255 * (b : ℚ) := by exact_mod_cast hS
    have hq1pos : (0 : ℚ) < 1 / (b : ℚ) := by positivity
    have hq1lo31 : (1 : ℚ) / 2 ^ 31 ≤ 1 / (b : ℚ) := one_div_le_one_div_of_le hbQ hbB'
    have hq1lo : (1 : ℚ) / 2 ^ 1100 ≤ 1 / (b : ℚ) := le_trans (by norm_num) hq1lo31
    have hq1hi : (1 : ℚ) / (b : ℚ) < 2 ^ 1100 := by
      have h1 : (1 : ℚ) / (b : ℚ) ≤ 1 := by
        rw [div_le_one hbQ]
        exact hbQ1
      have h2 : (1 : ℚ) < 2 ^ 1100 := by norm_num
      linarith
    obtain ⟨h1a, h1b⟩ := abs_le.mp (fl53_err (1 / (b : ℚ)) hq1pos hq1lo hq1hi)
    have hBq1 : (b : ℚ) * (1 / (b : ℚ)) = 1 := by field_simp
    set i : ℚ := fl53 (1 / (b : ℚ)) with hidef
    have hBi_ub : (b : ℚ) * i ≤ 1 + 1 / 2 ^ 53 := by
      have h := mul_le_mul_of_nonneg_left h1b (le_of_lt hbQ)
      have e1 : (b : ℚ) * (i - 1 / (b : ℚ)) = (b : ℚ) * i - 1 := by
        rw [mul_sub, hBq1]
      have e2 : (b : ℚ) * (1 / (b : ℚ) * (1 / 2 ^ 53)) = 1 / 2 ^ 53 := by
        rw [← mul_assoc, hBq1, one_mul]
      rw [e1, e2] at h
      linarith
    have hBi_lb : 1 - 1 / 2 ^ 53 ≤ (b : ℚ) * i := by
      have h := mul_le_mul_of_nonneg_left h1a (le_of_lt hbQ)
      have e1 : (b : ℚ) * (i - 1 / (b : ℚ)) = (b : ℚ) * i - 1 := by
        rw [mul_sub, hBq1]
      have e2 : (b : ℚ) * -(1 / (b : ℚ) * (1 / 2 ^ 53)) = -(1 / 2 ^ 53) := by
        rw [mul_neg, ← mul_assoc, hBq1, one_mul]
      rw [e1, e2] at h
      linarith
    set p : ℚ := (S : ℚ) * i with hpdef
    have hBp_ub : (b : ℚ) * p ≤ (S : ℚ) * (1 + 1 / 2 ^ 53) := by
      have e : (b : ℚ) * p = (S : ℚ) * ((b : ℚ) * i) := by rw [hpdef]; ring
      rw [e]
      exact mul_le_mul_of_nonneg_left hBi_ub hSQ0
    have hBp_lb : (S : ℚ) * (1 - 1 / 2 ^ 53) ≤ (b : ℚ) * p := by
      have e : (b : ℚ) * p = (S : ℚ) * ((b : ℚ) * i) := by rw [hpdef]; ring
      rw [e]
      exact mul_le_mul_of_nonneg_left hBi_lb hSQ0
    have hSk_pos : (0 : ℚ) < (S : ℚ) * (1 - 1 / 2 ^ 53) := by
      have h := mul_le_mul_of_nonneg_right hSQ1 (show (0 : ℚ) ≤ 1 - 1 / 2 ^ 53 by norm_num)
      calc (0 : ℚ) < 1 * (1 - 1 / 2 ^ 53) := by norm_num
        _ ≤ (S : ℚ) * (1 - 1 / 2 ^ 53) := h
    have hp_pos : (0 : ℚ) < p := by
      have h := lt_of_lt_of_le hSk_pos hBp_lb
      rcases mul_pos_iff.mp h with ⟨_, hp⟩ | ⟨hB, _⟩
      · exact hp
      · linarith
    have hplo : (1 : ℚ) / 2 ^ 1100 ≤ p := by
      have hstep : (b : ℚ) * ((1 : ℚ) / 2 ^ 1100) ≤ (b : ℚ) * p := by
        have h1 : (b : ℚ) * ((1 : ℚ) / 2 ^ 1100) ≤ 2 ^ 31 * ((1 : ℚ) / 2 ^ 1100) :=
          mul_le_mul_of_nonneg_right hbB' (by norm_num)
        have h2 : (2 : ℚ) ^ 31 * ((1 : ℚ) / 2 ^ 1100) ≤ 1 - 1 / 2 ^ 53 := by norm_num
        linarith [hSk_pos, hBp_lb]
      exact le_of_mul_le_mul_left hstep hbQ
    have hphi : p < 2 ^ 1100 := by
      have hlit : (255 * (1 + 1 / 2 ^ 53) : ℚ) < 2 ^ 1100 := by norm_num
      have hstep : (b : ℚ) * p < (b : ℚ) * 2 ^ 1100 := by
        have h1 : (S : ℚ) * (1 + 1 / 2 ^ 53) ≤ 255 * (b : ℚ) * (1 + 1 / 2 ^ 53) :=
          mul_le_mul_of_nonneg_right hSb (by norm_num)
        have h2 : 255 * (b : ℚ) * (1 + 1 / 2 ^ 53) = (b : ℚ) * (255 * (1 + 1 / 2 ^ 53)) := by
          ring
        have h3 : (b : ℚ) * (255 * (1 + 1 / 2 ^ 53)) < (b : ℚ) * 2 ^ 1100 :=
          (mul_lt_mul_left hbQ).mpr hlit
        linarith
      exact lt_of_mul_lt_mul_left hstep (le_of_lt hbQ)
    obtain ⟨h2a, h2b⟩ := abs_le.mp (fl53_err p hp_pos hplo hphi)
    set d : ℚ := fl53 p with hddef
    have hunf : blurEmit b (S : ℤ) = (⌊d⌋).toNat % 256 := by
      rw [blurEmit, Int.cast_natCast, ← hidef, ← hpdef, ← hddef]
    have hBd_ub : (b : ℚ) * d ≤ (S : ℚ) * (1 + 1 / 2 ^ 53) ^ 2 := by
      have hd1 : d ≤ p * (1 + 1 / 2 ^ 53) := by
        have e : p * (1 + 1 / 2 ^ 53) = p + p * (1 / 2 ^ 53) := by ring
        linarith
      have hstep1 : (b : ℚ) * d ≤ (b : ℚ) * (p * (1 + 1 / 2 ^ 53)) :=
        mul_le_mul_of_nonneg_left hd1 (le_of_lt hbQ)
      have e2 : (b : ℚ) * (p * (1 + 1 / 2 ^ 53)) = ((b : ℚ) * p) * (1 + 1 / 2 ^ 53) := by
        ring
      have hstep2 : ((b : ℚ) * p) * (1 + 1 / 2 ^ 53)
          ≤ ((S : ℚ) * (1 + 1 / 2 ^ 53)) * (1 + 1 / 2 ^ 53) :=
        mul_le_mul_of_nonneg_right hBp_ub (by norm_num)
      have e3 : ((S : ℚ) * (1 + 1 / 2 ^ 53)) * (1 + 1 / 2 ^ 53)
          = (S : ℚ) * (1 + 1 / 2 ^ 53) ^ 2 := by ring
      rw [e2] at hstep1
      rw [e3] at hstep2
      linarith
    have hBd_lb : (S : ℚ) * (1 - 1 / 2 ^ 53) ^ 2 ≤ (b : ℚ) * d := by
      have hd1 : p * (1 - 1 / 2 ^ 53) ≤ d := by
        have e : p * (1 - 1 / 2 ^ 53) = p - p * (1 / 2 ^ 53) := by ring
        linarith
      have hstep1 : (b : ℚ) * (p * (1 - 1 / 2 ^ 53)) ≤ (b : ℚ) * d :=
        mul_le_mul_of_nonneg_left hd1 (le_of_lt hbQ)
      have e2 : (b : ℚ) * (p * (1 - 1 / 2 ^ 53)) = ((b : ℚ) * p) * (1 - 1 / 2 ^ 53) := by
        ring
      have hstep2 : ((S : ℚ) * (1 - 1 / 2 ^ 53)) * (1 - 1 / 2 ^ 53)
          ≤ ((b : ℚ) * p) * (1 - 1 / 2 ^ 53) :=
        mul_le_mul_of_nonneg_right hBp_lb (by norm_num)
      have e3 : ((S : ℚ) * (1 - 1 / 2 ^ 53)) * (1 - 1 / 2 ^ 53)
          = (S : ℚ) * (1 - 1 / 2 ^ 53) ^ 2 := by ring
      rw [e2] at hstep1
      rw [e3] at hstep2
      linarith
    have hd_pos : (0 : ℚ) < d := by
      have h1 : (0 : ℚ) < (S : ℚ) * (1 - 1 / 2 ^ 53) ^ 2 := by
        have hsq : (0 : ℚ) < (1 - 1 / 2 ^ 53 : ℚ) ^ 2 := by norm_num
        exact mul_pos (lt_of_lt_of_le one_pos hSQ1) hsq
      have h := lt_of_lt_of_le h1 hBd_lb
      rcases mul_pos_iff.mp h with ⟨_, hd⟩ | ⟨hB, _⟩
      · exact hd
      · linarith
    have hdm : b * (S / b) + S % b = S := Nat.div_add_mod S b
    have hSdm : (b : ℚ) * ((S / b : ℕ) : ℚ) + ((S % b : ℕ) : ℚ) = (S : ℚ) := by
      exact_mod_cast hdm
    have hmod : S % b < b := Nat.mod_lt _ hb0
    have hmodQ : ((S % b : ℕ) : ℚ) + 1 ≤ (b : ℚ) := by exact_mod_cast hmod
    have hmodQ0 : (0 : ℚ) ≤ ((S % b : ℕ) : ℚ) := Nat.cast_nonneg _
    have hm255 : S / b ≤ 255 := by
      have h := Nat.div_le_div_right (c := b) hS
      rwa [Nat.mul_div_cancel _ hb0] at h
    have hS31 : (S : ℚ) ≤ 255 * 2 ^ 31 := by linarith
    have key1 : (S : ℚ) * (2 * (1 / 2 ^ 53) + (1 / 2 ^ 53) ^ 2) < 1 := by
      have hc : (2 * (1 / 2 ^ 53) + (1 / 2 ^ 53) ^ 2 : ℚ) ≤ 1 / 2 ^ 51 := by norm_num
      have h1 : (S : ℚ) * (2 * (1 / 2 ^ 53) + (1 / 2 ^ 53) ^ 2) ≤ (S : ℚ) * (1 / 2 ^ 51) :=
        mul_le_mul_of_nonneg_left hc hSQ0
      have h2 : (S : ℚ) * (1 / 2 ^ 51) ≤ (255 * 2 ^ 31) * (1 / 2 ^ 51 : ℚ) :=
        mul_le_mul_of_nonneg_right hS31 (by norm_num)
      have h3 : ((255 : ℚ) * 2 ^ 31) * (1 / 2 ^ 51) < 1 := by norm_num
      linarith
    have key2 : (S : ℚ) * (2 * (1 / 2 ^ 53) - (1 / 2 ^ 53) ^ 2) < 1 := by
      have hc : (2 * (1 / 2 ^ 53) - (1 / 2 ^ 53) ^ 2 : ℚ) ≤ 1 / 2 ^ 51 := by norm_num
      have h1 : (S : ℚ) * (2 * (1 / 2 ^ 53) - (1 / 2 ^ 53) ^ 2) ≤ (S : ℚ) * (1 / 2 ^ 51) :=
        mul_le_mul_of_nonneg_left hc hSQ0
      have h2 : (S : ℚ) * (1 / 2 ^ 51) ≤ (255 * 2 ^ 31) * (1 / 2 ^ 51 : ℚ) :=
        mul_le_mul_of_nonneg_right hS31 (by norm_num)
      have h3 : ((255 : ℚ) * 2 ^ 31) * (1 / 2 ^ 51) < 1 := by norm_num
      linarith
    have hup : d < ((S / b : ℕ) : ℚ) + 1 := by
      have e : (S : ℚ) * (1 + 1 / 2 ^ 53) ^ 2
          = (S : ℚ) + (S : ℚ) * (2 * (1 / 2 ^ 53) + (1 / 2 ^ 53) ^ 2) := by ring
      rw [e] at hBd_ub
      have h2 : (b : ℚ) * d < (b : ℚ) * (((S / b : ℕ) : ℚ) + 1) := by
        have e2 : (b : ℚ) * (((S / b : ℕ) : ℚ) + 1)
            = (b : ℚ) * ((S / b : ℕ) : ℚ) + (b : ℚ) := by ring
        rw [e2]
        linarith
      exact lt_of_mul_lt_mul_left h2 (le_of_lt hbQ)
    have hlow : ((S / b : ℕ) : ℚ) - 1 < d := by
      have e : (S : ℚ) * (1 - 1 / 2 ^ 53) ^ 2
          = (S : ℚ) - (S : ℚ) * (2 * (1 / 2 ^ 53) - (1 / 2 ^ 53) ^ 2) := by ring
      rw [e] at hBd_lb
      have h2 : (b : ℚ) * (((S / b : ℕ) : ℚ) - 1) < (b : ℚ) * d := by
        have e2 : (b : ℚ) * (((S / b : ℕ) : ℚ) - 1)
            = (b : ℚ) * ((S / b : ℕ) : ℚ) - (b : ℚ) := by ring
        rw [e2]
        linarith
      exact lt_of_mul_lt_mul_left h2 (le_of_lt hbQ)
    have hfl_ub : ⌊d⌋ < ((S / b : ℕ) : ℤ) + 1 := by
      rw [Int.floor_lt, Int.cast_add, Int.cast_one, Int.cast_natCast]
      exact hup
    have hfl_lb : ((S / b : ℕ) : ℤ) - 1 ≤ ⌊d⌋ := by
      rw [Int.le_floor, Int.cast_sub, Int.cast_one, Int.cast_natCast]
      linarith
    have hfl_0 : 0 ≤ ⌊d⌋ := by
      rw [Int.le_floor, Int.cast_zero]
      exact le_of_lt hd_pos
    rw [hunf]
    omega

theorem fl53_one_third : fl53 (1 / 3 : ℚ) = 6004799503160661 / 2 ^ 54 := by
  have he : ilog2 (1 / 3 : ℚ) = -2 :=
    ilog2_eq_of (1 / 3) (-2) (by norm_num) (by norm_num) (by norm_num) (by norm_num)
  rw [fl53, if_neg (by norm_num), he]
  have hx : (1 / 3 : ℚ) * 2 ^ (52 - (-2) : ℤ) = 18014398509481984 / 3 := by
    norm_num
  rw [hx]
  have hfl : ⌊(18014398509481984 / 3 : ℚ)⌋ = 6004799503160661 := by
    rw [Int.floor_eq_iff]
    norm_num
  have hr : rne (18014398509481984 / 3 : ℚ) = 6004799503160661 := by
    rw [rne, hfl]
    norm_num
  rw [hr]
  norm_num

theorem blurEmit_3_255 : blurEmit 3 ((255 : ℕ) : ℤ) = 85 := by
  have hc : (1 / ((3 : ℕ) : ℚ)) = 1 / 3 := by norm_num
  rw [blurEmit, hc, fl53_one_third]
  have hx : ((((255 : ℕ) : ℤ)) : ℚ) * (6004799503160661 / 2 ^ 54)
      = 1531223873305968555 / 2 ^ 54 := by
    norm_num
  rw [hx]
  have he : ilog2 (1531223873305968555 / 2 ^ 54 : ℚ) = 6 :=
    ilog2_eq_of _ 6 (by norm_num) (by norm_num) (by norm_num) (by norm_num)
  rw [fl53, if_neg (by norm_num), he]
  have hx2 : (1531223873305968555 / 2 ^ 54 : ℚ) * 2 ^ (52 - (6 : ℤ) : ℤ)
      = 1531223873305968555 / 256 := by
    norm_num
  rw [hx2]
  have hfl : ⌊(1531223873305968555 / 256 : ℚ)⌋ = 5981343255101439 := by
    rw [Int.floor_eq_iff]
    norm_num
  have hr : rne (1531223873305968555 / 256 : ℚ) = 5981343255101440 := by
    rw [rne, hfl]
    norm_num
  rw [hr]
  have hd : ((5981343255101440 : ℤ) : ℚ) * 2 ^ ((6 : ℤ) - 52) = 85 := by
    norm_num
  rw [hd]
  norm_num
  decide

theorem blurEmit_3_510 : blurEmit 3 ((510 : ℕ) : ℤ) = 170 := by
  have hc : (1 / ((3 : ℕ) : ℚ)) = 1 / 3 := by norm_num
  rw [blurEmit, hc, fl53_one_third]
  have hx : ((((510 : ℕ) : ℤ)) : ℚ) * (6004799503160661 / 2 ^ 54)
      = 3062447746611937110 / 2 ^ 54 := by
    norm_num
  rw [hx]
  have he : ilog2 (3062447746611937110 / 2 ^ 54 : ℚ) = 7 :=
    ilog2_eq_of _ 7 (by norm_num) (by norm_num) (by norm_num) (by norm_num)
  rw [fl53, if_neg (by norm_num), he]
  have hx2 : (3062447746611937110 / 2 ^ 54 : ℚ) * 2 ^ (52 - (7 : ℤ) : ℤ)
      = 3062447746611937110 / 512 := by
    norm_num
  rw [hx2]
  have hfl : ⌊(3062447746611937110 / 512 : ℚ)⌋ = 5981343255101439 := by
    rw [Int.floor_eq_iff]
    norm_num
  have hr : rne (3062447746611937110 / 512 : ℚ) = 5981343255101440 := by
    rw [rne, hfl]
    norm_num
  rw [hr]
  have hd : ((5981343255101440 : ℤ) : ℚ) * 2 ^ ((7 : ℤ) - 52) = 170 := by
    norm_num
  rw [hd]
  norm_num
  decide

theorem blurEmit_3_765 : blurEmit 3 ((765 : ℕ) : ℤ) = 255 := by
  have hc : (1 / ((3 : ℕ) : ℚ)) = 1 / 3 := by norm_num
  rw [blurEmit, hc, fl53_one_third]
  have hx : ((((765 : ℕ) : ℤ)) : ℚ) * (6004799503160661 / 2 ^ 54)
      = 4593671619917905665 / 2 ^ 54 := by
    norm_num
  rw [hx]
  have he : ilog2 (4593671619917905665 / 2 ^ 54 : ℚ) = 7 :=
    ilog2_eq_of _ 7 (by norm_num) (by norm_num) (by norm_num) (by norm_num)
  rw [fl53, if_neg (by norm_num), he]
  have hx2 : (4593671619917905665 / 2 ^ 54 : ℚ) * 2 ^ (52 - (7 : ℤ) : ℤ)
      = 4593671619917905665 / 512 := by
    norm_num
  rw [hx2]
  have hfl : ⌊(4593671619917905665 / 512 : ℚ)⌋ = 8972014882652159 := by
    rw [Int.floor_eq_iff]
    norm_num
  have hr : rne (4593671619917905665 / 512 : ℚ) = 8972014882652160 := by
    rw [rne, hfl]
    norm_num
  rw [hr]
  have hd : ((8972014882652160 : ℤ) : ℚ) * 2 ^ ((7 : ℤ) - 52) = 255 := by
    norm_num
  rw [hd]
  norm_num
  decide

theorem boxBlurRow_writes_good (a : ℕ → ℕ) (w dW b y : ℕ)
    (hodd : b % 2 = 1) (hbw : b ≤ w) :
    (boxBlurRow a w dW b y).writes =
      (List.range w).map fun x =>
        (y + x * dW, blurEmit b ((clippedWindowSum a w y x (boxSizeToRadius b) : ℕ) : ℤ)) := by
  rw [boxBlurRow_writes, boxBlurRow_writes_count w b hodd hbw]
  refine List.map_congr_left fun x hx => ?_
  rw [rowWindow_eq_clipped a w b y x hodd hbw]

theorem boxBlurPassTrace_writes_good (a : ℕ → ℕ) (w h dW b : ℕ)
    (hodd : b % 2 = 1) (hbw : b ≤ w) :
    (boxBlurPassTrace a w h dW b).2 =
      ((List.range h).map fun y => (List.range w).map fun x =>
        (y + x * dW, blurEmit b ((clippedWindowSum a w y x (boxSizeToRadius b) : ℕ) : ℤ))).flatten := by
  rw [boxBlurPassTrace]
  exact congrArg List.flatten
    (List.map_congr_left fun y _ => boxBlurRow_writes_good a w dW b y hodd hbw)

theorem boxBlurPassAlpha_eq_emit (a d : ℕ → ℕ) (w h b : ℕ)
    (hodd : b % 2 = 1) (hbw : b ≤ w)
    (y x : ℕ) (hy : y < h) (hx : x < w) :
    boxBlurPassAlpha a d w h h b (x * h + y)
      = blurEmit b ((clippedWindowSum a w y x (boxSizeToRadius b) : ℕ) : ℤ) := by
  rw [boxBlurPassAlpha, boxBlurPassTrace_writes_good a w h h b hodd hbw]
  apply applyWrites_eq_of_mem_unique
  · simp only [List.mem_flatten, List.mem_map, List.mem_range]
    refine ⟨_, ⟨y, hy, rfl⟩, ?_⟩
    simp only [List.mem_map, List.mem_range]
    exact ⟨x, hx, by rw [Nat.add_comm, Nat.mul_comm]⟩
  · intro p hp hpi
    simp only [List.mem_flatten, List.mem_map, List.mem_range] at hp
    obtain ⟨L, ⟨y', hy', rfl⟩, hpL⟩ := hp
    simp only [List.mem_map, List.mem_range] at hpL
    obtain ⟨x', hx', rfl⟩ := hpL
    simp only at hpi ⊢
    have hyy : y' = y := by
      have h1 : (y' + x' * h) % h = (x * h + y) % h := by rw [hpi]
      rwa [Nat.add_mul_mod_self_right, Nat.mul_comm, Nat.mul_add_mod,
        Nat.mod_eq_of_lt hy', Nat.mod_eq_of_lt hy] at h1
    subst hyy
    have hxx : x' = x := by
      have h2 : x' * h = x * h := by omega
      have hh : 0 < h := by omega
      exact Nat.eq_of_mul_eq_mul_right hh h2
    rw [hxx]

/-! ### Row energy accounting for a single pass -/

theorem clipped_count_eq (w r i : ℕ) :
    ((Finset.range w).filter fun x => x ≤ i + r ∧ i ≤ x + r).card
      = min w (i + r + 1) - (i - r) := by
  have he : ((Finset.range w).filter fun x => x ≤ i + r ∧ i ≤ x + r)
      = Finset.Ico (i - r) (min w (i + r + 1)) := by
    ext x
    simp only [Finset.mem_filter, Finset.mem_range, Finset.mem_Ico, lt_min_iff]
    omega
  rw [he, Nat.card_Ico]

theorem clipped_sum_comm (a : ℕ → ℕ) (w y r : ℕ) :
    ∑ x in Finset.range w, clippedWindowSum a w y x r
      = ∑ i in Finset.range w,
          a (y * w + i) * ((Finset.range w).filter fun x => x ≤ i + r ∧ i ≤ x + r).card := by
  simp only [clippedWindowSum]
  rw [Finset.sum_comm]
  refine Finset.sum_congr rfl fun i _ => ?_
  rw [← Finset.sum_filter, Finset.sum_const, smul_eq_mul, Nat.mul_comm]

theorem rowOutSum_le (a : ℕ → ℕ) (w dW b y : ℕ)
    (hodd : b % 2 = 1) (hbw : b ≤ w) (hbint : b ≤ 2 ^ 31) (ha : ∀ i, a i ≤ 255) :
    ((boxBlurRow a w dW b y).writes.map Prod.snd).sum
      ≤ ∑ i in Finset.range w, a (y * w + i) := by
  have hr : 2 * boxSizeToRadius b + 1 = b := by unfold boxSizeToRadius; omega
  have hb1 : 1 ≤ b := by omega
  rw [boxBlurRow_writes_good a w dW b y hodd hbw, List.map_map]
  have hsum : ((List.range w).map
      (Prod.snd ∘ fun x => (y + x * dW,
        blurEmit b ((clippedWindowSum a w y x (boxSizeToRadius b) : ℕ) : ℤ)))).sum
      = ∑ x in Finset.range w,
          blurEmit b ((clippedWindowSum a w y x (boxSizeToRadius b) : ℕ) : ℤ) :=
    list_sum_map_range _ w
  rw [hsum]
  have hemit : ∑ x in Finset.range w,
      blurEmit b ((clippedWindowSum a w y x (boxSizeToRadius b) : ℕ) : ℤ)
      ≤ ∑ x in Finset.range w, clippedWindowSum a w y x (boxSizeToRadius b) / b := by
    refine Finset.sum_le_sum fun x _ => ?_
    have hle : clippedWindowSum a w y x (boxSizeToRadius b) ≤ 255 * b := by
      rw [← rowWindow_eq_clipped a w b y x hodd hbw]
      exact rowWindow_le a w b y x hodd ha
    exact (blurEmit_bounds b _ hb1 hbint hle).1
  refine le_trans hemit ?_
  have key1 : b * ∑ x in Finset.range w, clippedWindowSum a w y x (boxSizeToRadius b) / b
      ≤ ∑ x in Finset.range w, clippedWindowSum a w y x (boxSizeToRadius b) := by
    rw [Finset.mul_sum]
    refine Finset.sum_le_sum fun x _ => ?_
    rw [Nat.mul_comm]
    exact Nat.div_mul_le_self _ b
  have key2 : ∑ x in Finset.range w, clippedWindowSum a w y x (boxSizeToRadius b)
      ≤ b * ∑ i in Finset.range w, a (y * w + i) := by
    rw [clipped_sum_comm, Finset.mul_sum]
    refine Finset.sum_le_sum fun i _ => ?_
    rw [clipped_count_eq]
    have hc : min w (i + boxSizeToRadius b + 1) - (i - boxSizeToRadius b) ≤ b := by omega
    calc a (y * w + i) * (min w (i + boxSizeToRadius b + 1) - (i - boxSizeToRadius b))
        ≤ a (y * w + i) * b := Nat.mul_le_mul_left _ hc
      _ = b * a (y * w + i) := Nat.mul_comm _ _
  have hchain := le_trans key1 key2
  exact Nat.le_of_mul_le_mul_left hchain (by omega)

theorem rowInSum_le (a : ℕ → ℕ) (w dW b y : ℕ)
    (hodd : b % 2 = 1) (hbw : b ≤ w) (hbint : b ≤ 2 ^ 31) (ha : ∀ i, a i ≤ 255) :
    ∑ i in Finset.range w, a (y * w + i)
      ≤ ((boxBlurRow a w dW b y).writes.map Prod.snd).sum
        + (2 * w + 255 * boxSizeToRadius b) := by
  have hr : 2 * boxSizeToRadius b + 1 = b := by unfold boxSizeToRadius; omega
  have hb1 : 1 ≤ b := by omega
  rw [boxBlurRow_writes_good a w dW b y hodd hbw, List.map_map]
  set r := boxSizeToRadius b with hrdef
  have hsum : ((List.range w).map
      (Prod.snd ∘ fun x => (y + x * dW,
        blurEmit b ((clippedWindowSum a w y x r : ℕ) : ℤ)))).sum
      = ∑ x in Finset.range w, blurEmit b ((clippedWindowSum a w y x r : ℕ) : ℤ) :=
    list_sum_map_range _ w
  rw [hsum]
  set A := ∑ i in Finset.range w, a (y * w + i) with hA
  set E := ∑ x in Finset.range w, blurEmit b ((clippedWindowSum a w y x r : ℕ) : ℤ) with hE
  set O := ∑ x in Finset.range w, clippedWindowSum a w y x r / b with hO
  have split : b * A = (∑ x in Finset.range w, clippedWindowSum a w y x r)
      + ∑ i in Finset.range w,
          a (y * w + i) * (b - ((Finset.range w).filter fun x => x ≤ i + r ∧ i ≤ x + r).card) := by
    rw [clipped_sum_comm, ← Finset.sum_add_distrib, hA, Finset.mul_sum]
    refine Finset.sum_congr rfl fun i _ => ?_
    rw [← Nat.mul_add, Nat.mul_comm b]
    congr 1
    rw [clipped_count_eq]
    omega
  have deficit : ∑ i in Finset.range w,
      a (y * w + i) * (b - ((Finset.range w).filter fun x => x ≤ i + r ∧ i ≤ x + r).card)
      ≤ 255 * r * b := by
    have step1 : ∑ i in Finset.range w,
        a (y * w + i) * (b - ((Finset.range w).filter fun x => x ≤ i + r ∧ i ≤ x + r).card)
        ≤ ∑ i in Finset.range w, (if r ≤ i ∧ i + r + 1 ≤ w then 0 else 255 * r) := by
      refine Finset.sum_le_sum fun i hi => ?_
      have hi2 : i < w := Finset.mem_range.mp hi
      rw [clipped_count_eq]
      by_cases hmid : r ≤ i ∧ i + r + 1 ≤ w
      · rw [if_pos hmid]
        have hz : b - (min w (i + r + 1) - (i - r)) = 0 := by omega
        rw [hz, Nat.mul_zero]
      · rw [if_neg hmid]
        have h1 : b - (min w (i + r + 1) - (i - r)) ≤ r := by omega
        exact Nat.mul_le_mul (ha _) h1
    have step2 : ∑ i in Finset.range w, (if r ≤ i ∧ i + r + 1 ≤ w then 0 else 255 * r)
        ≤ 255 * r * (2 * r) := by
      rw [Finset.sum_ite, Finset.sum_const, Finset.sum_const, smul_eq_mul, smul_eq_mul,
        Nat.mul_zero, Nat.zero_add]
      have hsub : ((Finset.range w).filter fun i => ¬(r ≤ i ∧ i + r + 1 ≤ w))
          ⊆ Finset.Ico 0 r ∪ Finset.Ico (w - r) w := by
        intro i hi
        simp only [Finset.mem_filter, Finset.mem_range, Finset.mem_union, Finset.mem_Ico] at hi ⊢
        omega
      have hcard : ((Finset.range w).filter fun i => ¬(r ≤ i ∧ i + r + 1 ≤ w)).card ≤ 2 * r := by
        have h1 := Finset.card_le_card hsub
        have h2 := Finset.card_union_le (Finset.Ico 0 r) (Finset.Ico (w - r) w)
        rw [Nat.card_Ico, Nat.card_Ico] at h2
        omega
      have h3 : ((Finset.range w).filter fun i => ¬(r ≤ i ∧ i + r + 1 ≤ w)).card * (255 * r)
          ≤ 2 * r * (255 * r) := Nat.mul_le_mul_right _ hcard
      have h4 : 2 * r * (255 * r) = 255 * r * (2 * r) := by ring
      omega
    have step3 : 255 * r * (2 * r) ≤ 255 * r * b := Nat.mul_le_mul_left _ (by omega)
    omega
  have key4 : ∑ x in Finset.range w, clippedWindowSum a w y x r ≤ b * O + w * (b - 1) := by
    have hstep : ∑ x in Finset.range w, clippedWindowSum a w y x r
        ≤ ∑ x in Finset.range w, (b * (clippedWindowSum a w y x r / b) + (b - 1)) := by
      refine Finset.sum_le_sum fun x _ => ?_
      have hdm := Nat.div_add_mod (clippedWindowSum a w y x r) b
      have hlt : clippedWindowSum a w y x r % b < b := Nat.mod_lt _ (by omega)
      omega
    have heq : ∑ x in Finset.range w, (b * (clippedWindowSum a w y x r / b) + (b - 1))
        = b * O + w * (b - 1) := by
      rw [Finset.sum_add_distrib, Finset.sum_const, smul_eq_mul, Finset.card_range,
        hO, Finset.mul_sum]
    omega
  have final : b * A ≤ b * (O + (w + 255 * r)) := by
    calc b * A = (∑ x in Finset.range w, clippedWindowSum a w y x r)
          + ∑ i in Finset.range w,
              a (y * w + i)
                * (b - ((Finset.range w).filter fun x => x ≤ i + r ∧ i ≤ x + r).card) := split
      _ ≤ (b * O + w * (b - 1)) + 255 * r * b := Nat.add_le_add key4 deficit
      _ ≤ (b * O + b * w) + b * (255 * r) := by
          have h1 : w * (b - 1) ≤ b * w := by
            have h0 : w * (b - 1) ≤ w * b := Nat.mul_le_mul_left w (by omega)
            have h0b : w * b = b * w := Nat.mul_comm _ _
            omega
          have h3 : 255 * r * b = b * (255 * r) := by ring
          omega
      _ = b * (O + (w + 255 * r)) := by ring
  have hAO : A ≤ O + (w + 255 * r) := Nat.le_of_mul_le_mul_left final (by omega)
  have hOE : O ≤ E + w := by
    have hstep : ∀ x ∈ Finset.range w, clippedWindowSum a w y x r / b
        ≤ blurEmit b ((clippedWindowSum a w y x r : ℕ) : ℤ) + 1 := by
      intro x _
      have hle : clippedWindowSum a w y x r ≤ 255 * b := by
        rw [hrdef, ← rowWindow_eq_clipped a w b y x hodd hbw]
        exact rowWindow_le a w b y x hodd ha
      exact (blurEmit_bounds b _ hb1 hbint hle).2
    calc O ≤ ∑ x in Finset.range w,
          (blurEmit b ((clippedWindowSum a w y x r : ℕ) : ℤ) + 1) :=
        Finset.sum_le_sum hstep
      _ = E + w := by
          rw [Finset.sum_add_distrib, Finset.sum_const, smul_eq_mul,
            Finset.card_range, hE, Nat.mul_one]
  omega

/-! ### Trace-level bounds -/

theorem boxBlurPassTrace_reads_bound (a : ℕ → ℕ) (w h dW b : ℕ)
    (hodd : b % 2 = 1) (hbw : b ≤ w) :
    ∀ i ∈ (boxBlurPassTrace a w h dW b).1, i < w * h := by
  intro i hi
  simp only [boxBlurPassTrace, List.mem_flatten, List.mem_map, List.mem_range] at hi
  obtain ⟨L, ⟨y, hy, rfl⟩, hiL⟩ := hi
  have hb := boxBlurRow_reads_bound a w dW b y hodd hbw i hiL
  have h1 : (y + 1) * w ≤ h * w := Nat.mul_le_mul_right w (by omega)
  have h2 : (y + 1) * w = y * w + w := by ring
  have h3 : h * w = w * h := Nat.mul_comm h w
  omega

theorem boxBlurPassTrace_writes_bound (a : ℕ → ℕ) (w h b : ℕ)
    (hodd : b % 2 = 1) (hbw : b ≤ w) :
    ∀ p ∈ (boxBlurPassTrace a w h h b).2, p.1 < h * w := by
  intro p hp
  simp only [boxBlurPassTrace, List.mem_flatten, List.mem_map, List.mem_range] at hp
  obtain ⟨L, ⟨y, hy, rfl⟩, hpL⟩ := hp
  rw [boxBlurRow_writes, boxBlurRow_writes_count w b hodd hbw] at hpL
  simp only [List.mem_map, List.mem_range] at hpL
  obtain ⟨x, hx, rfl⟩ := hpL
  simp only
  have h1 : (x + 1) * h ≤ w * h := Nat.mul_le_mul_right h (by omega)
  have h2 : (x + 1) * h = x * h + h := by ring
  have h3 : w * h = h * w := Nat.mul_comm w h
  have h4 : y + x * h < x * h + h := by omega
  omega

/-! ### Shape preservation of `boxBlurAlpha` -/

theorem boxBlurPassImg_width (src dst : Image) (bs : ℕ) :
    (boxBlurPassImg src dst bs).width = dst.width := rfl

theorem boxBlurPassImg_height (src dst : Image) (bs : ℕ) :
    (boxBlurPassImg src dst bs).height = dst.height := rfl

theorem boxBlurAlpha_dims (image : Image) (radius numIterations : ℕ) (tmpData : ℕ → ℕ) :
    (boxBlurAlpha image radius numIterations tmpData).width = image.width ∧
    (boxBlurAlpha image radius numIterations tmpData).height = image.height := by
  have main : ∀ (L : List ℤ) (p : Image × Image),
      p.1.width = image.width → p.1.height = image.height →
      p.2.width = image.height → p.2.height = image.width →
      ((L.foldl (fun p boxSize =>
          (boxBlurPassImg (boxBlurPassImg p.1 p.2 boxSize.toNat) p.1 boxSize.toNat,
            boxBlurPassImg p.1 p.2 boxSize.toNat)) p).1.width = image.width ∧
        (L.foldl (fun p boxSize =>
          (boxBlurPassImg (boxBlurPassImg p.1 p.2 boxSize.toNat) p.1 boxSize.toNat,
            boxBlurPassImg p.1 p.2 boxSize.toNat)) p).1.height = image.height) := by
    intro L
    induction L with
    | nil => intro p h1 h2 h3 h4; exact ⟨h1, h2⟩
    | cons bs t ih =>
        intro p h1 h2 h3 h4
        exact ih _ h1 h2 h3 h4
  exact main (computeBoxSizes radius numIterations) _ rfl rfl rfl rfl

/-! ### Exact square-root floor and rounding facts -/

theorem ratFloorSqrt_sq_le (q : ℚ) (h : 0 ≤ q) : ((ratFloorSqrt q : ℚ)) ^ 2 ≤ q := by
  rw [ratFloorSqrt]
  set A := q.num.toNat with hA
  set B := q.den with hB
  have hBpos : 0 < B := q.den_pos
  have hq : ((A : ℚ)) / (B : ℚ) = q := by
    have hnum : ((A : ℤ)) = q.num := Int.toNat_of_nonneg (Rat.num_nonneg.mpr h)
    have hnum2 : ((A : ℚ)) = ((q.num : ℚ)) := by exact_mod_cast hnum
    rw [hnum2, hB]
    exact Rat.num_div_den q
  set s := Nat.sqrt (A * B) with hs
  have key : (s / B) ^ 2 * B ≤ A := by
    have h1 : s / B * B ≤ s := Nat.div_mul_le_self s B
    have h2 : (s / B * B) ^ 2 ≤ s ^ 2 := Nat.pow_le_pow_left h1 2
    have h3 : s ^ 2 ≤ A * B := Nat.sqrt_le' (A * B)
    have h4 : (s / B) ^ 2 * B * B ≤ A * B := by
      calc (s / B) ^ 2 * B * B = (s / B * B) ^ 2 := by ring
        _ ≤ s ^ 2 := h2
        _ ≤ A * B := h3
    exact Nat.le_of_mul_le_mul_right h4 hBpos
  rw [← hq, le_div_iff₀ (by exact_mod_cast hBpos)]
  exact_mod_cast key

theorem ratFloorSqrt_lt_succ_sq (q : ℚ) (h : 0 ≤ q) :
    q < ((ratFloorSqrt q : ℚ) + 1) ^ 2 := by
  rw [ratFloorSqrt]
  set A := q.num.toNat with hA
  set B := q.den with hB
  have hBpos : 0 < B := q.den_pos
  have hq : ((A : ℚ)) / (B : ℚ) = q := by
    have hnum : ((A : ℤ)) = q.num := Int.toNat_of_nonneg (Rat.num_nonneg.mpr h)
    have hnum2 : ((A : ℚ)) = ((q.num : ℚ)) := by exact_mod_cast hnum
    rw [hnum2, hB]
    exact Rat.num_div_den q
  set s := Nat.sqrt (A * B) with hs
  have key : A < (s / B + 1) ^ 2 * B := by
    have h1 : s < (s / B + 1) * B := by
      have hdm := Nat.div_add_mod s B
      have hlt : s % B < B := Nat.mod_lt _ hBpos
      have : (s / B + 1) * B = B * (s / B) + B := by ring
      omega
    have h2 : A * B < (s + 1) ^ 2 := Nat.lt_succ_sqrt' (A * B)
    have h3 : (s + 1) ^ 2 ≤ ((s / B + 1) * B) ^ 2 := Nat.pow_le_pow_left (by omega) 2
    have h4 : A * B < (s / B + 1) ^ 2 * B * B := by
      calc A * B < (s + 1) ^ 2 := h2
        _ ≤ ((s / B + 1) * B) ^ 2 := h3
        _ = (s / B + 1) ^ 2 * B * B := by ring
    exact Nat.lt_of_mul_lt_mul_right h4
  rw [← hq, div_lt_iff₀ (by exact_mod_cast hBpos)]
  exact_mod_cast key

theorem croundQ_nonneg_eq_floor (x : ℚ) (h : 0 ≤ x) :
    croundQ x = ⌊x + 1 / 2⌋ := by
  rw [croundQ, if_pos h]

theorem croundQ_natCast (n : ℕ) : croundQ (n : ℚ) = n := by
  rw [croundQ, if_pos (by positivity)]
  have h1 : ((n : ℚ)) = ((n : ℤ) : ℚ) := by norm_cast
  rw [h1, Int.floor_int_add]
  norm_num

/-! ### Structure of `computeBoxSizes` -/

theorem computeBoxSizesLower_facts (radius n : ℕ) (hn : 1 ≤ n) :
    Odd (computeBoxSizesLower radius n) ∧ 0 < computeBoxSizesLower radius n ∧
    ((computeBoxSizesLower radius n : ℚ)) ^ 2
        ≤ 12 * radiusToSigma (radius : ℚ) ^ 2 / (n : ℚ) + 1 ∧
    12 * radiusToSigma (radius : ℚ) ^ 2 / (n : ℚ) + 1
        < ((computeBoxSizesLower radius n : ℚ) + 2) ^ 2 := by
  have hq0 : (0 : ℚ) ≤ 12 * radiusToSigma (radius : ℚ) ^ 2 / (n : ℚ) + 1 := by positivity
  have hq1 : (1 : ℚ) ≤ 12 * radiusToSigma (radius : ℚ) ^ 2 / (n : ℚ) + 1 := by
    have h1 : (0 : ℚ) ≤ 12 * radiusToSigma (radius : ℚ) ^ 2 / (n : ℚ) := by positivity
    linarith
  simp only [computeBoxSizesLower]
  set L := ratFloorSqrt (12 * radiusToSigma (radius : ℚ) ^ 2 / (n : ℚ) + 1) with hL
  have hL2 := ratFloorSqrt_sq_le _ hq0
  have hLs := ratFloorSqrt_lt_succ_sq _ hq0
  rw [← hL] at hL2 hLs
  have hL1 : 1 ≤ L := by
    by_contra hc
    have hz : L = 0 := by omega
    rw [hz] at hLs
    norm_num at hLs
    linarith
  by_cases hpar : L % 2 = 0
  · rw [if_pos hpar]
    have hL2' : 2 ≤ L := by omega
    refine ⟨?_, ?_, ?_, ?_⟩
    · rw [Int.odd_iff]
      omega
    · omega
    · have hcast : ((L : ℚ)) - 1 = (((L : ℤ) - 1 : ℤ) : ℚ) := by push_cast; ring
      have hnn : (0 : ℚ) ≤ (L : ℚ) - 1 := by
        have : (1 : ℚ) ≤ (L : ℚ) := by exact_mod_cast hL1
        linarith
      have hmono : ((L : ℚ) - 1) ^ 2 ≤ ((L : ℚ)) ^ 2 := by nlinarith
      rw [← hcast]
      linarith
    · have hcast : (((L : ℤ) - 1 : ℤ) : ℚ) + 2 = (L : ℚ) + 1 := by push_cast; ring
      rw [hcast]
      exact hLs
  · rw [if_neg hpar]
    refine ⟨?_, ?_, ?_, ?_⟩
    · rw [Int.odd_iff]
      omega
    · omega
    · exact_mod_cast hL2
    · have h2 : ((L : ℚ)) + 1 ≤ ((L : ℤ) : ℚ) + 2 := by push_cast; linarith
      have h3 : (0 : ℚ) ≤ (L : ℚ) + 1 := by positivity
      nlinarith

theorem computeBoxSizesThreshold_bounds (radius n : ℕ) (hn : 1 ≤ n) :
    0 ≤ computeBoxSizesThreshold radius n ∧ computeBoxSizesThreshold radius n ≤ n := by
  obtain ⟨hodd, hpos, hle, hlt⟩ := computeBoxSizesLower_facts radius n hn
  simp only [computeBoxSizesThreshold]
  set l := computeBoxSizesLower radius n with hldef
  set s2 := radiusToSigma (radius : ℚ) ^ 2 with hs2
  have hl1 : (1 : ℚ) ≤ (l : ℚ) := by exact_mod_cast hpos
  have hd : (-4 * (l : ℚ) - 4) < 0 := by linarith
  have hn0 : (0 : ℚ) < (n : ℚ) := by exact_mod_cast hn
  have hupper : 12 * s2 < (n : ℚ) * (((l : ℚ) + 2) ^ 2 - 1) := by
    have h1 : 12 * s2 / (n : ℚ) < ((l : ℚ) + 2) ^ 2 - 1 := by linarith
    have h2 := (div_lt_iff₀ hn0).mp h1
    linarith [h2]
  have hlower : (n : ℚ) * ((l : ℚ) ^ 2 - 1) ≤ 12 * s2 := by
    have h1 : (l : ℚ) ^ 2 - 1 ≤ 12 * s2 / (n : ℚ) := by linarith
    have h2 := (le_div_iff₀ hn0).mp h1
    linarith [h2]
  have hNneg : 12 * s2 - (n : ℚ) * (l : ℚ) ^ 2 - 4 * (n : ℚ) * (l : ℚ) - 3 * (n : ℚ) < 0 := by
    nlinarith
  have hx0 : 0 < (12 * s2 - (n : ℚ) * (l : ℚ) ^ 2 - 4 * (n : ℚ) * (l : ℚ) - 3 * (n : ℚ))
      / (-4 * (l : ℚ) - 4) := by
    rw [div_pos_iff]
    right
    exact ⟨hNneg, hd⟩
  have hxn : (12 * s2 - (n : ℚ) * (l : ℚ) ^ 2 - 4 * (n : ℚ) * (l : ℚ) - 3 * (n : ℚ))
      / (-4 * (l : ℚ) - 4) ≤ (n : ℚ) := by
    rw [div_le_iff_of_neg hd]
    nlinarith
  rw [croundQ_nonneg_eq_floor _ (le_of_lt hx0)]
  constructor
  · exact Int.floor_nonneg.mpr (by linarith)
  · have h1 : (12 * s2 - (n : ℚ) * (l : ℚ) ^ 2 - 4 * (n : ℚ) * (l : ℚ) - 3 * (n : ℚ))
        / (-4 * (l : ℚ) - 4) + 1 / 2 ≤ (n : ℚ) + 1 / 2 := by linarith
    have h2 := Int.floor_le_floor h1
    have h3 : ⌊(n : ℚ) + 1 / 2⌋ = n := by
      rw [show ((n : ℚ)) = (((n : ℤ)) : ℚ) by norm_cast, Int.floor_int_add]
      norm_num
    omega

theorem range_map_ite_replicate (n m : ℕ) (hm : m ≤ n) (p q : ℤ) :
    ((List.range n).map fun i => if i < m then p else q)
      = List.replicate m p ++ List.replicate (n - m) q := by
  induction n with
  | zero =>
      have hm0 : m = 0 := by omega
      subst hm0
      simp
  | succ k ih =>
      rcases Nat.lt_or_ge k m with h | h
      · have hm2 : m = k + 1 := by omega
        subst hm2
        have hall : (List.range (k + 1)).map (fun i => if i < k + 1 then p else q)
            = (List.range (k + 1)).map fun _ => p :=
          List.map_congr_left fun i hi => if_pos (List.mem_range.mp hi)
        rw [hall]
        simp [List.map_const']
      · rw [List.range_succ, List.map_append, ih h]
        have hk : ¬ k < m := by omega
        have hrep : List.replicate (k + 1 - m) q = List.replicate (k - m) q ++ [q] := by
          rw [show k + 1 - m = (k - m) + 1 by omega, List.replicate_succ']
        rw [hrep]
        simp [hk, List.append_assoc]

theorem computeBoxSizes_structure_core (radius n : ℕ) (hn : 1 ≤ n) :
    computeBoxSizes radius n
      = List.replicate (computeBoxSizesThreshold radius n).toNat (computeBoxSizesLower radius n)
        ++ List.replicate (n - (computeBoxSizesThreshold radius n).toNat)
            (computeBoxSizesLower radius n + 2) := by
  obtain ⟨ht0, htn⟩ := computeBoxSizesThreshold_bounds radius n hn
  rw [computeBoxSizes]
  have hcond : ∀ i ∈ List.range n,
      (if (i : ℤ) < computeBoxSizesThreshold radius n
        then computeBoxSizesLower radius n else computeBoxSizesLower radius n + 2)
      = (if i < (computeBoxSizesThreshold radius n).toNat
        then computeBoxSizesLower radius n else computeBoxSizesLower radius n + 2) := by
    intro i _
    exact if_congr (by omega) rfl rfl
  rw [List.map_congr_left hcond, range_map_ite_replicate n _ (by omega)]

theorem computeBoxSizes_length (radius n : ℕ) : (computeBoxSizes radius n).length = n := by
  simp [computeBoxSizes]

theorem computeBoxSizesLower_zero (n : ℕ) : computeBoxSizesLower 0 n = 1 := by
  simp only [computeBoxSizesLower]
  rw [show 12 * radiusToSigma ((0 : ℕ) : ℚ) ^ 2 / (n : ℚ) + 1 = 1 by
    simp [radiusToSigma]]
  rw [show ratFloorSqrt 1 = 1 by rfl]
  norm_num

theorem computeBoxSizesThreshold_zero (n : ℕ) : computeBoxSizesThreshold 0 n = n := by
  simp only [computeBoxSizesThreshold, computeBoxSizesLower_zero]
  rw [show (12 * radiusToSigma ((0 : ℕ) : ℚ) ^ 2 - (n : ℚ) * (((1 : ℤ)) : ℚ) ^ 2
      - 4 * (n : ℚ) * (((1 : ℤ)) : ℚ) - 3 * (n : ℚ)) / (-4 * (((1 : ℤ)) : ℚ) - 4) = (n : ℚ) by
    simp [radiusToSigma]
    ring]
  exact croundQ_natCast n

theorem computeBoxSizes_sum_bounds (radius n : ℕ) (hn : 1 ≤ n) :
    (n : ℤ) * computeBoxSizesLower radius n ≤ (computeBoxSizes radius n).sum ∧
    (computeBoxSizes radius n).sum ≤ (n : ℤ) * (computeBoxSizesLower radius n + 2) := by
  obtain ⟨ht0, htn⟩ := computeBoxSizesThreshold_bounds radius n hn
  rw [computeBoxSizes_structure_core radius n hn, List.sum_append, List.sum_replicate,
    List.sum_replicate, nsmul_eq_mul, nsmul_eq_mul]
  set l := computeBoxSizesLower radius n with hldef
  set m := (computeBoxSizesThreshold radius n).toNat with hmdef
  have hmn : m ≤ n := by omega
  have hcast : ((n - m : ℕ) : ℤ) = (n : ℤ) - (m : ℤ) := by
    push_cast [Nat.cast_sub hmn]
    ring
  have hm0 : (0 : ℤ) ≤ (m : ℤ) := by positivity
  have hnm : (m : ℤ) ≤ (n : ℤ) := by exact_mod_cast hmn
  constructor
  · rw [hcast]
    nlinarith
  · rw [hcast]
    nlinarith

theorem ratFloorSqrt_eq_of (q : ℚ) (k : ℕ) (h0 : 0 ≤ q)
    (h1 : ((k : ℚ)) ^ 2 ≤ q) (h2 : q < ((k : ℚ) + 1) ^ 2) : ratFloorSqrt q = k := by
  have s1 := ratFloorSqrt_sq_le q h0
  have s2 := ratFloorSqrt_lt_succ_sq q h0
  set L := ratFloorSqrt q with hL
  have hLk : L < k + 1 := by
    by_contra hc
    push_neg at hc
    have hcast : ((k : ℚ)) + 1 ≤ (L : ℚ) := by exact_mod_cast hc
    have hp : ((k : ℚ) + 1) ^ 2 ≤ ((L : ℚ)) ^ 2 := by nlinarith
    linarith
  have hkL : k < L + 1 := by
    by_contra hc
    push_neg at hc
    have hcast : ((L : ℚ)) + 1 ≤ (k : ℚ) := by exact_mod_cast hc
    have hp : ((L : ℚ) + 1) ^ 2 ≤ ((k : ℚ)) ^ 2 := by nlinarith
    linarith
  omega

theorem computeBoxSizesLower_four_three : computeBoxSizesLower 4 3 = 3 := by
  simp only [computeBoxSizesLower]
  rw [show 12 * radiusToSigma ((4 : ℕ) : ℚ) ^ 2 / ((3 : ℕ) : ℚ) + 1 = 53 / 4 by
    norm_num [radiusToSigma, SIGMA_BLUR_SCALE]]
  rw [ratFloorSqrt_eq_of (53 / 4) 3 (by norm_num) (by norm_num) (by norm_num)]
  norm_num

theorem computeBoxSizesThreshold_four_three : computeBoxSizesThreshold 4 3 = 2 := by
  simp only [computeBoxSizesThreshold, computeBoxSizesLower_four_three]
  rw [show (12 * radiusToSigma ((4 : ℕ) : ℚ) ^ 2 - ((3 : ℕ) : ℚ) * (((3 : ℤ)) : ℚ) ^ 2
      - 4 * ((3 : ℕ) : ℚ) * (((3 : ℤ)) : ℚ) - 3 * ((3 : ℕ) : ℚ)) / (-4 * (((3 : ℤ)) : ℚ) - 4)
      = 141 / 64 by norm_num [radiusToSigma, SIGMA_BLUR_SCALE]]
  rw [croundQ_nonneg_eq_floor _ (by norm_num)]
  rw [show (141 : ℚ) / 64 + 1 / 2 = 173 / 64 by norm_num]
  rw [Int.floor_eq_iff]
  norm_num

theorem computeBoxSizes_four_three : computeBoxSizes 4 3 = [3, 3, 5] := by
  rw [computeBoxSizes, computeBoxSizesThreshold_four_three, computeBoxSizesLower_four_three]
  decide

/-! ### Claim theorems -/

/-- C1 (counterexample): as stated, the claim fails.  With a `2 × 2`
source, `boxSize = 3` (so `(boxSize - 1) / 2 = 1 < 2 = src.width`), a
transposed `2 × 2` destination and source alphas `0, 0, 255, 0`, the
value written at transposed position `(y, x) = (0, 1)` is `85`, not the
clipped-window average `0`: the code's flat pointer walks past the end
of row `0` into row `1` instead of clipping the window at the row
boundary. -/
theorem boxBlurPass_clipped_claim_counterexample :
    ¬ (boxBlurPassAlpha (fun i => if i = 2 then 255 else 0) (fun _ => 0) 2 2 2 3 (1 * 2 + 0)
      = clippedWindowSum (fun i => if i = 2 then 255 else 0) 2 0 1 (boxSizeToRadius 3) / 3) := by
  have hwin : rowWindow (fun i => if i = 2 then 255 else 0) 2 3 0 1 = 255 := by decide
  have h85 : blurEmit 3 ((rowWindow (fun i => if i = 2 then 255 else 0) 2 3 0 1 : ℕ) : ℤ)
      = 85 := by
    rw [hwin]
    exact blurEmit_3_255
  have hval : boxBlurPassAlpha (fun i => if i = 2 then 255 else 0) (fun _ => 0) 2 2 2 3
      (1 * 2 + 0) = 85 := by
    rw [boxBlurPassAlpha]
    apply applyWrites_eq_of_mem_unique
    · simp only [boxBlurPassTrace, List.mem_flatten, List.mem_map, List.mem_range]
      refine ⟨(boxBlurRow (fun i => if i = 2 then 255 else 0) 2 2 3 0).writes,
        ⟨0, by norm_num, rfl⟩, ?_⟩
      rw [boxBlurRow_writes]
      simp only [List.mem_map, List.mem_range]
      refine ⟨1, by norm_num [boxSizeToRadius], ?_⟩
      rw [h85]
    · intro p hp hpi
      simp only [boxBlurPassTrace, List.mem_flatten, List.mem_map, List.mem_range] at hp
      obtain ⟨L, ⟨y, hy, rfl⟩, hpL⟩ := hp
      rw [boxBlurRow_writes] at hpL
      simp only [List.mem_map, List.mem_range] at hpL
      obtain ⟨x, hx, rfl⟩ := hpL
      simp only at hpi ⊢
      norm_num [boxSizeToRadius] at hx
      have hy0 : y = 0 := by omega
      have hx1 : x = 1 := by omega
      subst hy0
      subst hx1
      exact h85
  intro hcontra
  rw [hval] at hcontra
  have hz : clippedWindowSum (fun i => if i = 2 then 255 else 0) 2 0 1 (boxSizeToRadius 3) / 3
      = 0 := by decide
  omega

/-- C1 (amended): for every source buffer `a` of byte values, every
destination pre-allocated to the transposed dimensions, and every odd
`boxSize ≤ src.width` (instead of `(boxSize - 1) / 2 < src.width`) in
the C++ `int` range, `boxBlurPass` writes at transposed position
`(y, x)` of the destination a value within one unit below the clipped
running-window sum divided by `boxSize` and truncated: the product with
the rounded double reciprocal `1.0 / boxSize` can truncate one lower
than the exact average (it does, for instance, at `boxSize = 49` on
exact multiples of `49`), and never truncates higher. -/
theorem boxBlurPass_writes_clipped_average (a d : ℕ → ℕ) (w h boxSize : ℕ)
    (hodd : boxSize % 2 = 1) (hbw : boxSize ≤ w) (hbint : boxSize ≤ 2 ^ 31)
    (ha : ∀ i, a i ≤ 255) (y x : ℕ) (hy : y < h) (hx : x < w) :
    boxBlurPassAlpha a d w h h boxSize (x * h + y)
        ≤ clippedWindowSum a w y x (boxSizeToRadius boxSize) / boxSize ∧
    clippedWindowSum a w y x (boxSizeToRadius boxSize) / boxSize
        ≤ boxBlurPassAlpha a d w h h boxSize (x * h + y) + 1 := by
  rw [boxBlurPassAlpha_eq_emit a d w h boxSize hodd hbw y x hy hx]
  have hle : clippedWindowSum a w y x (boxSizeToRadius boxSize) ≤ 255 * boxSize := by
    rw [← rowWindow_eq_clipped a w boxSize y x hodd hbw]
    exact rowWindow_le a w boxSize y x hodd ha
  exact blurEmit_bounds boxSize _ (by omega) hbint hle

/-- C1 (witness): the amended theorem applied at a concrete input. -/
theorem boxBlurPass_writes_clipped_average_witness :
    (1 % 2 = 1 ∧ 1 ≤ 1 ∧ 1 ≤ 2 ^ 31 ∧ (∀ i : ℕ, (fun _ : ℕ => (7 : ℕ)) i ≤ 255)
      ∧ 0 < 1 ∧ 0 < 1) ∧
    (boxBlurPassAlpha (fun _ => 7) (fun _ => 0) 1 1 1 1 (0 * 1 + 0)
        ≤ clippedWindowSum (fun _ => 7) 1 0 0 (boxSizeToRadius 1) / 1 ∧
     clippedWindowSum (fun _ => 7) 1 0 0 (boxSizeToRadius 1) / 1
        ≤ boxBlurPassAlpha (fun _ => 7) (fun _ => 0) 1 1 1 1 (0 * 1 + 0) + 1) :=
  ⟨⟨rfl, Nat.le_refl 1, by norm_num, fun _ => by norm_num, Nat.one_pos, Nat.one_pos⟩,
    boxBlurPass_writes_clipped_average (fun _ => 7) (fun _ => 0) 1 1 1 rfl (Nat.le_refl 1)
      (by norm_num) (fun _ => by norm_num) 0 0 Nat.one_pos Nat.one_pos⟩

/-- C2: for every `radius ≥ 0` and `numPasses ≥ 1`, `computeBoxSizes`
returns exactly `numPasses` positive odd integers: the first `m` equal
the odd value `lower` and the rest equal `lower + 2`, where `m` is
Kovesi's closed-form threshold and satisfies `0 ≤ m ≤ numPasses`. -/
theorem computeBoxSizes_structure (radius numPasses : ℕ) (hn : 1 ≤ numPasses) :
    ∃ m : ℕ, (m : ℤ) = computeBoxSizesThreshold radius numPasses ∧ m ≤ numPasses ∧
      (computeBoxSizes radius numPasses).length = numPasses ∧
      Odd (computeBoxSizesLower radius numPasses) ∧
      0 < computeBoxSizesLower radius numPasses ∧
      computeBoxSizes radius numPasses
        = List.replicate m (computeBoxSizesLower radius numPasses)
          ++ List.replicate (numPasses - m) (computeBoxSizesLower radius numPasses + 2) ∧
      ∀ s ∈ computeBoxSizes radius numPasses, Odd s ∧ 0 < s := by
  obtain ⟨ht0, htn⟩ := computeBoxSizesThreshold_bounds radius numPasses hn
  obtain ⟨hodd, hpos, _, _⟩ := computeBoxSizesLower_facts radius numPasses hn
  refine ⟨(computeBoxSizesThreshold radius numPasses).toNat, by omega, by omega,
    computeBoxSizes_length _ _, hodd, hpos, computeBoxSizes_structure_core _ _ hn, ?_⟩
  intro s hs
  rw [computeBoxSizes_structure_core _ _ hn] at hs
  simp only [List.mem_append, List.mem_replicate] at hs
  obtain ⟨k, hk⟩ := hodd
  rcases hs with ⟨_, rfl⟩ | ⟨_, rfl⟩
  · exact ⟨⟨k, hk⟩, hpos⟩
  · exact ⟨⟨k + 1, by omega⟩, by omega⟩

/-- C2 (witness): the theorem applied at `radius = 2`, `numPasses = 3`
(where the box sizes are `[1, 1, 3]`). -/
theorem computeBoxSizes_structure_witness :
    1 ≤ 3 ∧
    ∃ m : ℕ, (m : ℤ) = computeBoxSizesThreshold 2 3 ∧ m ≤ 3 ∧
      (computeBoxSizes 2 3).length = 3 ∧
      Odd (computeBoxSizesLower 2 3) ∧
      0 < computeBoxSizesLower 2 3 ∧
      computeBoxSizes 2 3
        = List.replicate m (computeBoxSizesLower 2 3)
          ++ List.replicate (3 - m) (computeBoxSizesLower 2 3 + 2) ∧
      ∀ s ∈ computeBoxSizes 2 3, Odd s ∧ 0 < s :=
  ⟨by decide, computeBoxSizes_structure 2 3 (by decide)⟩

/-- C3 (counterexample): as stated, the claim fails: for the malformed
geometry of a `1 × 1` source, a `1 × 1` destination and `boxSize = 3`
(radius larger than the buffer width), the pass reads source offsets `1`
and `2`, which are outside the one-pixel buffer. -/
theorem boxBlurPass_bounds_claim_counterexample :
    ¬ (∀ i ∈ (boxBlurPassTrace (fun _ => 0) 1 1 1 3).1, i < 1 * 1) := by
  decide

/-- C3 (amended): provided the destination is pre-allocated to the
transposed dimensions and the odd `boxSize` is at most `src.width`,
every read offset of the pass is inside the source buffer and every
write offset is inside the destination buffer.  For a radius larger
than the row width the pass does access memory out of bounds, so the
restriction on `boxSize` is necessary. -/
theorem boxBlurPass_accesses_in_bounds (a : ℕ → ℕ) (w h boxSize : ℕ)
    (hodd : boxSize % 2 = 1) (hbw : boxSize ≤ w) :
    (∀ i ∈ (boxBlurPassTrace a w h h boxSize).1, i < w * h) ∧
    (∀ p ∈ (boxBlurPassTrace a w h h boxSize).2, p.1 < h * w) :=
  ⟨boxBlurPassTrace_reads_bound a w h h boxSize hodd hbw,
   boxBlurPassTrace_writes_bound a w h boxSize hodd hbw⟩

/-- C3 (witness): the amended theorem applied at a concrete input. -/
theorem boxBlurPass_accesses_in_bounds_witness :
    (1 % 2 = 1 ∧ 1 ≤ 1) ∧
    ((∀ i ∈ (boxBlurPassTrace (fun _ => 0) 1 1 1 1).1, i < 1 * 1) ∧
     (∀ p ∈ (boxBlurPassTrace (fun _ => 0) 1 1 1 1).2, p.1 < 1 * 1)) :=
  ⟨⟨rfl, Nat.le_refl 1⟩, boxBlurPass_accesses_in_bounds (fun _ => 0) 1 1 1 rfl (Nat.le_refl 1)⟩

/-- C4 (counterexample): as stated, the claim fails: for a `3 × 1` row
of alphas `255, 255, 255` and `boxSize = 3`, the written values are
`170, 255, 170` with sum `595`, while the input sum is `765`; the
difference `170` exceeds the row width `3`. -/
theorem boxBlurPass_row_energy_claim_counterexample :
    ¬ (|(((boxBlurRow (fun _ => 255) 3 1 3 0).writes.map Prod.snd).sum : ℤ)
        - ((∑ i in Finset.range 3, (fun _ => (255 : ℕ)) (0 * 3 + i) : ℕ) : ℤ)| ≤ 3) := by
  have hw0 : rowWindow (fun _ : ℕ => 255) 3 3 0 0 = 510 := by decide
  have hw1 : rowWindow (fun _ : ℕ => 255) 3 3 0 1 = 765 := by decide
  have hw2 : rowWindow (fun _ : ℕ => 255) 3 3 0 2 = 510 := by decide
  have hsum : ((boxBlurRow (fun _ => 255) 3 1 3 0).writes.map Prod.snd).sum = 595 := by
    rw [boxBlurRow_writes]
    have hc : boxSizeToRadius 3 + 1 + ((3 - (2 * boxSizeToRadius 3 + 1)) + boxSizeToRadius 3)
        = 3 := by decide
    rw [hc]
    simp only [List.range_succ, List.range_zero, List.map_append, List.map_cons,
      List.map_nil, List.nil_append, List.sum_append, List.sum_cons, List.sum_nil]
    rw [hw0, hw1, hw2, blurEmit_3_510, blurEmit_3_765]
    norm_num
  intro habs
  rw [hsum] at habs
  have hin : (∑ i in Finset.range 3, (fun _ : ℕ => (255 : ℕ)) (0 * 3 + i)) = 765 := by decide
  rw [hin] at habs
  exact absurd habs (by decide)

/-- C4 (amended): for every source row of byte values and every odd
`boxSize ≤ src.width` in the C++ `int` range, the sum of the values
written for that row never exceeds the input sum of the row, and falls
short of it by at most `2 * width + 255 * radius` (rather than at most
`width`): each output is an average truncated through the rounded
double reciprocal, which can lose one more unit per column, and the
windows of the `radius` outermost columns are clipped but still divided
by the full `boxSize`. -/
theorem boxBlurPass_row_energy (a : ℕ → ℕ) (w dW boxSize y : ℕ)
    (hodd : boxSize % 2 = 1) (hbw : boxSize ≤ w) (hbint : boxSize ≤ 2 ^ 31)
    (ha : ∀ i, a i ≤ 255) :
    ((boxBlurRow a w dW boxSize y).writes.map Prod.snd).sum
        ≤ ∑ i in Finset.range w, a (y * w + i) ∧
    ∑ i in Finset.range w, a (y * w + i)
        ≤ ((boxBlurRow a w dW boxSize y).writes.map Prod.snd).sum
          + (2 * w + 255 * boxSizeToRadius boxSize) :=
  ⟨rowOutSum_le a w dW boxSize y hodd hbw hbint ha,
   rowInSum_le a w dW boxSize y hodd hbw hbint ha⟩

/-- C4 (witness): the amended theorem applied at a concrete input. -/
theorem boxBlurPass_row_energy_witness :
    (1 % 2 = 1 ∧ 1 ≤ 1 ∧ 1 ≤ 2 ^ 31 ∧ (∀ i : ℕ, (fun _ : ℕ => (7 : ℕ)) i ≤ 255)) ∧
    (((boxBlurRow (fun _ => 7) 1 1 1 0).writes.map Prod.snd).sum
        ≤ ∑ i in Finset.range 1, (fun _ : ℕ => (7 : ℕ)) (0 * 1 + i) ∧
    ∑ i in Finset.range 1, (fun _ : ℕ => (7 : ℕ)) (0 * 1 + i)
        ≤ ((boxBlurRow (fun _ => 7) 1 1 1 0).writes.map Prod.snd).sum
          + (2 * 1 + 255 * boxSizeToRadius 1)) :=
  ⟨⟨rfl, Nat.le_refl 1, by norm_num, fun _ => by norm_num⟩,
   boxBlurPass_row_energy (fun _ => 7) 1 1 1 0 rfl (Nat.le_refl 1) (by norm_num)
     (fun _ => by norm_num)⟩

/-- C5 (counterexample): as stated, the claim fails.  At `radius = 4`,
`numPasses = 3` the box sizes are `[3, 3, 5]`, whose mean `11 / 3` is
more than one unit away from `2 * sqrt(12 * sigma^2 / numPasses + 1)
≈ 7.28`: the factor `2` makes the stated ideal roughly twice the mean
box size. -/
theorem computeBoxSizes_mean_claim_counterexample :
    ¬ (|(((computeBoxSizes 4 3).sum : ℤ) : ℝ) / ((3 : ℕ) : ℝ)
      - 2 * Real.sqrt (((12 * radiusToSigma ((4 : ℕ) : ℚ) ^ 2 / ((3 : ℕ) : ℚ) + 1 : ℚ) : ℝ))|
        ≤ 1) := by
  have hsum : (computeBoxSizes 4 3).sum = 11 := by
    rw [computeBoxSizes_four_three]
    decide
  have hq : (12 * radiusToSigma ((4 : ℕ) : ℚ) ^ 2 / ((3 : ℕ) : ℚ) + 1 : ℚ) = 53 / 4 := by
    norm_num [radiusToSigma, SIGMA_BLUR_SCALE]
  rw [hsum, hq]
  have hcast : (((53 : ℚ) / 4 : ℚ) : ℝ) = 53 / 4 := by norm_num
  rw [hcast]
  have hs : (7 : ℝ) / 3 < Real.sqrt (53 / 4) := by
    have h1 : ((7 : ℝ) / 3) ^ 2 < 53 / 4 := by norm_num
    exact (Real.lt_sqrt (by norm_num)).mpr h1
  intro habs
  rw [abs_le] at habs
  have h2 : (((11 : ℤ)) : ℝ) / ((3 : ℕ) : ℝ) = 11 / 3 := by norm_num
  rw [h2] at habs
  linarith [habs.1]

/-- C5 (amended): for every `radius ≥ 0` and `numPasses ≥ 1`, with
`sigma = radius * 0.4375`, the mean box size
`(sum of box sizes) / numPasses` is within 2 units of
`sqrt(12 * sigma^2 / numPasses + 1)` (the stated bound
`1` unit of `2 * sqrt(...)` fails; the mean tracks the square root
itself, to within the rounding of `lower` to an odd integer). -/
theorem computeBoxSizes_mean_near_ideal (radius numPasses : ℕ) (hn : 1 ≤ numPasses) :
    |(((computeBoxSizes radius numPasses).sum : ℤ) : ℝ) / ((numPasses : ℕ) : ℝ)
      - Real.sqrt (((12 * radiusToSigma ((radius : ℕ) : ℚ) ^ 2 / ((numPasses : ℕ) : ℚ) + 1 : ℚ) : ℝ))|
        ≤ 2 := by
  obtain ⟨hs1, hs2⟩ := computeBoxSizes_sum_bounds radius numPasses hn
  obtain ⟨_, hpos, hle, hlt⟩ := computeBoxSizesLower_facts radius numPasses hn
  set l := computeBoxSizesLower radius numPasses with hldef
  set q : ℚ := 12 * radiusToSigma ((radius : ℕ) : ℚ) ^ 2 / ((numPasses : ℕ) : ℚ) + 1 with hqdef
  have hl1 : (1 : ℝ) ≤ ((l : ℤ) : ℝ) := by exact_mod_cast hpos
  have hleR : (((l : ℤ)) : ℝ) ^ 2 ≤ ((q : ℚ) : ℝ) := by exact_mod_cast hle
  have hltR : ((q : ℚ) : ℝ) < ((((l : ℤ)) : ℝ) + 2) ^ 2 := by exact_mod_cast hlt
  have hq0 : (0 : ℝ) ≤ ((q : ℚ) : ℝ) := le_trans (sq_nonneg _) hleR
  have hsqrt_lb : (((l : ℤ)) : ℝ) ≤ Real.sqrt ((q : ℚ) : ℝ) :=
    (Real.le_sqrt (by linarith) hq0).mpr hleR
  have hsqrt_ub : Real.sqrt ((q : ℚ) : ℝ) < (((l : ℤ)) : ℝ) + 2 :=
    (Real.sqrt_lt' (by linarith)).mpr hltR
  have hn0 : (0 : ℝ) < ((numPasses : ℕ) : ℝ) := by exact_mod_cast hn
  have hs1R : ((numPasses : ℕ) : ℝ) * (((l : ℤ)) : ℝ) ≤ (((computeBoxSizes radius numPasses).sum : ℤ) : ℝ) := by
    exact_mod_cast hs1
  have hs2R : (((computeBoxSizes radius numPasses).sum : ℤ) : ℝ)
      ≤ ((numPasses : ℕ) : ℝ) * ((((l : ℤ)) : ℝ) + 2) := by exact_mod_cast hs2
  have hmean_lb : (((l : ℤ)) : ℝ) ≤ (((computeBoxSizes radius numPasses).sum : ℤ) : ℝ) / ((numPasses : ℕ) : ℝ) := by
    rw [le_div_iff₀ hn0]
    calc (((l : ℤ)) : ℝ) * ((numPasses : ℕ) : ℝ) = ((numPasses : ℕ) : ℝ) * (((l : ℤ)) : ℝ) := by ring
      _ ≤ _ := hs1R
  have hmean_ub : (((computeBoxSizes radius numPasses).sum : ℤ) : ℝ) / ((numPasses : ℕ) : ℝ)
      ≤ (((l : ℤ)) : ℝ) + 2 := by
    rw [div_le_iff₀ hn0]
    calc (((computeBoxSizes radius numPasses).sum : ℤ) : ℝ)
        ≤ ((numPasses : ℕ) : ℝ) * ((((l : ℤ)) : ℝ) + 2) := hs2R
      _ = ((((l : ℤ)) : ℝ) + 2) * ((numPasses : ℕ) : ℝ) := by ring
  rw [abs_le]
  constructor
  · linarith
  · linarith

/-- C5 (witness): the amended theorem applied at `radius = 0`,
`numPasses = 1`. -/
theorem computeBoxSizes_mean_near_ideal_witness :
    1 ≤ 1 ∧
    |(((computeBoxSizes 0 1).sum : ℤ) : ℝ) / ((1 : ℕ) : ℝ)
      - Real.sqrt (((12 * radiusToSigma ((0 : ℕ) : ℚ) ^ 2 / ((1 : ℕ) : ℚ) + 1 : ℚ) : ℝ))| ≤ 2 :=
  ⟨Nat.le_refl 1, computeBoxSizes_mean_near_ideal 0 1 (Nat.le_refl 1)⟩

/-- C6: `boxBlurAlpha(image, radius, 3)` leaves the image's width and
height unchanged: the single scratch buffer has transposed dimensions
and each box size performs one pass `image → tmp` followed by one pass
`tmp → image` (see the definition of `boxBlurAlpha`, which allocates the
scratch buffer once, outside the loop), so the pairs of transposing
passes restore the original shape. -/
theorem boxBlurAlpha_preserves_shape (image : Image) (radius : ℕ) (tmpData : ℕ → ℕ) :
    (boxBlurAlpha image radius 3 tmpData).width = image.width ∧
    (boxBlurAlpha image radius 3 tmpData).height = image.height :=
  boxBlurAlpha_dims image radius 3 tmpData

/-- C7 (counterexample): the inner rectangle masked out of the shadow
bitmap does not match the original box position: `innerRect` is
`(64, 46, 129, 129)` while `box` is `(64, 64, 129, 129)` — the `y`
coordinate differs by the overall offset `18`. -/
theorem updateShadow_innerRect_claim_counterexample :
    updateShadowInnerRect ≠ updateShadowBox := by
  decide

/-- C7 (amended): with the two built-in shadow layers (radius 64,
offset `(0, 0)`, opacity 0.8 and radius 24, offset `(0, -10)`, opacity
0.1), the composite shadow's padding on each edge equals
`max(64, 24)` minus the overall offset component on the left and top
edges and `max(64, 24)` plus the overall offset component on the right
and bottom edges; the masked-out inner rectangle has the size of the
original box but sits at the box position translated by minus the
overall offset (not exactly at the box position). -/
theorem updateShadow_padding_innerRect :
    (s_shadowParams.shadow1.radius = 64 ∧ s_shadowParams.shadow1.offset = ⟨0, 0⟩ ∧
     s_shadowParams.shadow1.opacity = 0.8 ∧
     s_shadowParams.shadow2.radius = 24 ∧ s_shadowParams.shadow2.offset = ⟨0, -10⟩ ∧
     s_shadowParams.shadow2.opacity = 0.1) ∧
    (updateShadowPadding.left = max 64 24 - s_shadowParams.offset.x ∧
     updateShadowPadding.top = max 64 24 - s_shadowParams.offset.y ∧
     updateShadowPadding.right = max 64 24 + s_shadowParams.offset.x ∧
     updateShadowPadding.bottom = max 64 24 + s_shadowParams.offset.y) ∧
    updateShadowInnerRect
      = { x := updateShadowBox.x - s_shadowParams.offset.x
          y := updateShadowBox.y - s_shadowParams.offset.y
          w := updateShadowBox.w
          h := updateShadowBox.h } := by
  refine ⟨⟨rfl, rfl, rfl, rfl, rfl, rfl⟩, ⟨?_, ?_, ?_, ?_⟩, ?_⟩ <;> decide

/-- C8: at byte level, `boxBlurPass` writes only alpha bytes of the
destination — every byte whose offset is not `3 mod 4` keeps the value
the caller placed there — and reads only alpha bytes of the source: two
source buffers that agree on all alpha bytes produce identical output
(the source itself is never written: the pass is a function of the
source producing a new destination). -/
theorem boxBlurPass_alpha_only (srcBytes dstBytes : ℕ → ℕ) (w h dW boxSize : ℕ) :
    (∀ i, i % 4 ≠ 3 → boxBlurPassBytes srcBytes dstBytes w h dW boxSize i = dstBytes i) ∧
    (∀ srcBytes2 : ℕ → ℕ,
      (∀ p, srcBytes2 (alphaByteIndex p) = srcBytes (alphaByteIndex p)) →
        boxBlurPassBytes srcBytes2 dstBytes w h dW boxSize
          = boxBlurPassBytes srcBytes dstBytes w h dW boxSize) := by
  constructor
  · intro i hi
    exact applyWritesBytes_nonalpha dstBytes _ i hi
  · intro s2 hs
    rw [boxBlurPassBytes, boxBlurPassBytes]
    have hfun : bytesToAlpha s2 = bytesToAlpha srcBytes := funext fun p => hs p
    rw [hfun]

/-- C8 (witness): both parts of the theorem applied at concrete
inputs. -/
theorem boxBlurPass_alpha_only_witness :
    ((5 : ℕ) % 4 ≠ 3 ∧
      (∀ p : ℕ, (fun _ : ℕ => (0 : ℕ)) (alphaByteIndex p) = (fun _ : ℕ => (0 : ℕ)) (alphaByteIndex p))) ∧
    boxBlurPassBytes (fun _ => 0) (fun i => i) 1 1 1 1 5 = (fun i : ℕ => i) 5 ∧
    boxBlurPassBytes (fun _ => 0) (fun i => i) 1 1 1 1
      = boxBlurPassBytes (fun _ => 0) (fun i => i) 1 1 1 1 :=
  ⟨⟨by decide, fun _ => rfl⟩,
   (boxBlurPass_alpha_only (fun _ => 0) (fun i => i) 1 1 1 1).1 5 (by decide),
   (boxBlurPass_alpha_only (fun _ => 0) (fun i => i) 1 1 1 1).2 (fun _ => 0) (fun _ => rfl)⟩

/-- C9: for every `numPasses ≥ 1`, `computeBoxSizes 0 numPasses` is a
sequence of `numPasses` ones: a zero radius degenerates to the no-op
blur width 1. -/
theorem computeBoxSizes_zero_radius (n : ℕ) (hn : 1 ≤ n) :
    computeBoxSizes 0 n = List.replicate n 1 := by
  rw [computeBoxSizes_structure_core 0 n hn, computeBoxSizesThreshold_zero,
    computeBoxSizesLower_zero, Int.toNat_natCast]
  simp

/-- C9 (witness): the theorem applied at `numPasses = 2`. -/
theorem computeBoxSizes_zero_radius_witness :
    1 ≤ 2 ∧ computeBoxSizes 0 2 = List.replicate 2 1 :=
  ⟨by decide, computeBoxSizes_zero_radius 2 (by decide)⟩

